import Mathlib

/-!
Verification development for the conversation state engine of the
tester-mcp-client repository.

The definitions below are shallow embeddings of the TypeScript source:

* `isBase64`, `pruneAndFixConversation` embed `src/utils.ts`;
* the `ConversationManager` namespace embeds the conversation manager class
  (token counting, context-window eviction, the tool-call orchestration loop
  `handleLLMResponse`, and the retry wrapper `createMessageWithRetry`);
* the `MCPClient` namespace embeds the retry wrapper of `src/mcpClient.ts`.

External collaborators (the Anthropic completion API, the MCP tool gateway,
the token-counting endpoint) are modelled as oracle functions passed in as
parameters; thrown JavaScript errors are modelled as string-carrying error
values, matching how the source inspects only `error.message`.
-/

namespace TesterMcpClient

/-! ## Base64: the WHATWG forgiving decoder (`atob`) and encoder (`btoa`)

`src/utils.ts` tests whether a string is base64 via `btoa(atob(str)) === str`.
`atob` is the WHATWG forgiving-base64 decode (strip ASCII whitespace, strip
up to two trailing `=` when the length is a multiple of 4, reject a remaining
length of 1 mod 4 and any character outside the alphabet); `btoa` produces
canonical padded base64. Bytes are modelled as `Nat` values below 256.
-/

def b64Chars : List Char :=
  ("ABCDEFGHIJKLMNOPQRSTUVWXYZabcdefghijklmnopqrstuvwxyz0123456789+/").data

def b64Val (c : Char) : Option Nat :=
  (b64Chars.indexOf c) |> fun i => if i < 64 then some i else none

def b64Char (v : Nat) : Char := b64Chars.getD v ('A')

def isB64Ws (c : Char) : Bool :=
  c = ' ' || c = '\t' || c = '\n' || c = '\x0d' || c = '\x0c'

/-- Strip up to two trailing `=` characters, as forgiving-base64 does when
the whitespace-stripped data has length divisible by 4. -/
def stripPad (cs : List Char) : List Char :=
  match cs.reverse with
  | '=' :: '=' :: rest => rest.reverse
  | '=' :: rest => rest.reverse
  | _ => cs

/-- Decode a list of 6-bit values into bytes (final quantum of 2 values gives
1 byte, of 3 values gives 2 bytes; spare bits are discarded). -/
def b64Decode : List Nat → List Nat
  | a :: b :: c :: d :: rest =>
      (a * 4 + b / 16) :: ((b % 16) * 16 + c / 4) :: ((c % 4) * 64 + d) :: b64Decode rest
  | [a, b] => [a * 4 + b / 16]
  | [a, b, c] => [a * 4 + b / 16, (b % 16) * 16 + c / 4]
  | _ => []

/-- `atob`: forgiving-base64 decode to a byte list, `none` when the input is
rejected (JS throws `InvalidCharacterError`). -/
def atob (s : String) : Option (List Nat) := do
  let cs := s.data.filter (fun c => !isB64Ws c)
  let cs := if cs.length % 4 = 0 then stripPad cs else cs
  if cs.length % 4 = 1 then none
  else
    let vals ← cs.mapM b64Val
    pure (b64Decode vals)

/-- `btoa` restricted to byte lists: canonical padded base64 encoding. -/
def b64Encode : List Nat → List Char
  | x :: y :: z :: rest =>
      b64Char (x / 4) :: b64Char ((x % 4) * 16 + y / 16) ::
        b64Char ((y % 16) * 4 + z / 64) :: b64Char (z % 64) :: b64Encode rest
  | [x, y] => [b64Char (x / 4), b64Char ((x % 4) * 16 + y / 16), b64Char ((y % 16) * 4), '=']
  | [x] => [b64Char (x / 4), b64Char ((x % 4) * 16), '=', '=']
  | [] => []

def btoa (bytes : List Nat) : String := String.mk (b64Encode bytes)

/-- `isBase64` from `src/utils.ts`:
`if (!str) return false; try { return btoa(atob(str)) === str } catch { return false }`. -/
def isBase64 (str : String) : Bool :=
  if str = ("") then false
  else
    match atob str with
    | none => false
    | some bytes => btoa bytes = str

example : isBase64 ("aGVsbG8gd29ybGQ=") = true := by decide
example : isBase64 ("hello") = false := by decide
example : isBase64 ("hi") = false := by decide
example : isBase64 ("") = false := by decide

/-! ## Message model

`MessageParam` from the Anthropic SDK as used by the source: a role plus
content that is either a plain string or a list of content blocks. Block
fields not inspected by the source (`cache_control`, `citations`, tool
inputs, image payloads) are carried as opaque strings / options. A
`tool_result` block's content is either a string or an array of nested
text/image items, matching `ToolResultBlockParam.content` in the SDK; the
source only inspects the string form (`typeof block.content === 'string'`).
-/

inductive TRItem where
  | text (text : String)
  | image (data : String)
  deriving DecidableEq, Repr

inductive TRContent where
  | str (s : String)
  | items (l : List TRItem)
  deriving DecidableEq, Repr

inductive RBlock where
  | text (text : String) (cache_control : Option String) (citations : Option String)
  | tool_use (id : String) (name : String) (input : String)
  | tool_result (tool_use_id : String) (content : TRContent)
      (is_error : Option Bool) (cache_control : Option String)
  | image (data : String)
  deriving DecidableEq, Repr

inductive MsgContent where
  | str (s : String)
  | blocks (bs : List RBlock)
  deriving DecidableEq, Repr

structure MessageParam where
  role : String
  content : MsgContent
  deriving DecidableEq, Repr

instance : Inhabited MessageParam := ⟨⟨("user"), MsgContent.str ("")⟩⟩

/-- Modelled from the spec: the fixed placeholder string
`IMAGE_BASE64_PLACEHOLDER` is imported by `src/utils.ts` from `./const.js`,
but its defining constant is not among the provided sources; the spec only
requires "a fixed placeholder string". Its exact text is irrelevant to the
claims; it is not itself base64. -/
def IMAGE_BASE64_PLACEHOLDER : String := "[Image or binary content replaced by placeholder]"

example : isBase64 IMAGE_BASE64_PLACEHOLDER = false := by decide

/-! ## pruneAndFixConversation (src/utils.ts)

The source makes a single first pass that simultaneously (a) rebuilds each
message with base64 payloads redacted and (b) records `tool_use` /
`tool_result` ids into two insertion-ordered maps (`Map<string, number>`,
id -> message index, later occurrences overwriting the stored index). The
pruning never changes a block's type or ids, so the pass is embedded as a
pruning map (`pruneMessage`) plus an id-collecting fold (`collectMaps`) over
the same conversation; the composition is observationally identical to the
single loop. -/

def pruneBlock (b : RBlock) : RBlock :=
  match b with
  | .text t cc cit => if isBase64 t then .text IMAGE_BASE64_PLACEHOLDER cc cit else b
  | .tool_result id (.str s) ie cc =>
      if isBase64 s then .tool_result id (.str IMAGE_BASE64_PLACEHOLDER) ie cc else b
  | _ => b

def pruneMessage (m : MessageParam) : MessageParam :=
  match m.content with
  | .str s => ⟨m.role, .str (if isBase64 s then IMAGE_BASE64_PLACEHOLDER else s)⟩
  | .blocks bs => ⟨m.role, .blocks (bs.map pruneBlock)⟩

/-- Insertion-ordered map (JS `Map`), modelled as an assoc list with unique
keys: `set` overwrites an existing key in place (keeping its position in
insertion order) and appends a fresh key at the end; iteration order of
`keys()` is insertion order. -/
def mapSet {κ ν : Type} [DecidableEq κ] (l : List (κ × ν)) (k : κ) (v : ν) : List (κ × ν) :=
  match l with
  | [] => [(k, v)]
  | p :: rest => if p.1 = k then (k, v) :: rest else p :: mapSet rest k v

def mapGet {κ ν : Type} [DecidableEq κ] (l : List (κ × ν)) (k : κ) : Option ν :=
  match l with
  | [] => none
  | p :: rest => if p.1 = k then some p.2 else mapGet rest k

def mapHas {κ ν : Type} [DecidableEq κ] (l : List (κ × ν)) (k : κ) : Bool :=
  (mapGet l k).isSome

def mapGetD {κ ν : Type} [DecidableEq κ] (l : List (κ × ν)) (k : κ) (d : ν) : ν :=
  (mapGet l k).getD d

def mapKeys {κ ν : Type} (l : List (κ × ν)) : List κ := List.map Prod.fst l

abbrev IdxMap := List (String × Nat)

/-- Record one block's id into the (useMap, resultMap) pair, as the first
pass does for a block of message index `m`. -/
def blockScan (m : Nat) (maps : IdxMap × IdxMap) (b : RBlock) : IdxMap × IdxMap :=
  match b with
  | .tool_use id _ _ => (mapSet maps.1 id m, maps.2)
  | .tool_result id _ _ _ => (maps.1, mapSet maps.2 id m)
  | _ => maps

def msgScan (m : Nat) (maps : IdxMap × IdxMap) (msg : MessageParam) : IdxMap × IdxMap :=
  match msg.content with
  | .str _ => maps
  | .blocks bs => bs.foldl (blockScan m) maps

def collectMapsAux : List MessageParam → Nat → IdxMap × IdxMap → IdxMap × IdxMap
  | [], _, maps => maps
  | msg :: rest, m, maps => collectMapsAux rest (m + 1) (msgScan m maps msg)

def collectMaps (conv : List MessageParam) : IdxMap × IdxMap :=
  collectMapsAux conv 0 ([], [])

/-- Insertion-ordered nat-keyed map (`Map<number, string[]>`). -/
abbrev NatMap := List (Nat × List String)

/-- Group a list of orphaned ids by the message index recorded for them
(`toolResultMessagesWithoutUse` / `toolUseMessagesWithoutResult`). -/
def groupByIndex (ids : List String) (idx : IdxMap) : NatMap :=
  ids.foldl
    (fun acc id =>
      match mapGet idx id with
      | some m => mapSet acc m (mapGetD acc m [] ++ [id])
      | none => acc)
    []

def DUMMY_RESULT_CONTENT : String :=
  "[Tool use without result - most likely tool failed or response was too large to be sent to LLM]"

example : isBase64 DUMMY_RESULT_CONTENT = false := by decide

/-- Synthetic assistant message with one `tool_use` block per orphaned
`tool_result` id (`name: 'unknown_tool', input: {}`). -/
def dummyUseMessage (ids : List String) : MessageParam :=
  ⟨("assistant"), .blocks (ids.map (fun id => RBlock.tool_use id ("unknown_tool") ("")))⟩

/-- Synthetic user message with one `tool_result` block per orphaned
`tool_use` id. -/
def dummyResultMessage (ids : List String) : MessageParam :=
  ⟨("user"), .blocks (ids.map (fun id => RBlock.tool_result id (.str DUMMY_RESULT_CONTENT) none none))⟩

/-- `array.splice(i, 0, x)`. -/
def insertAt (l : List MessageParam) (i : Nat) (x : MessageParam) : List MessageParam :=
  l.take i ++ x :: l.drop i

/-- The backwards splice loop of `pruneAndFixConversation`
(`for (let m = ...length - 1; m >= 0; m--)`), with `fuel = m + 1`. -/
def fixLoop (rM uM : NatMap) : Nat → List MessageParam → List MessageParam
  | 0, conv => conv
  | m + 1, conv =>
      let conv' :=
        if mapHas rM m then insertAt conv m (dummyUseMessage (mapGetD rM m []))
        else if mapHas uM m then
          if m = conv.length - 1 then conv
          else insertAt conv (m + 1) (dummyResultMessage (mapGetD uM m []))
        else conv
      fixLoop rM uM m conv'

/-- `pruneAndFixConversation` from `src/utils.ts`. -/
def pruneAndFixConversation (conversation : List MessageParam) : List MessageParam :=
  let pruned := conversation.map pruneMessage
  let maps := collectMaps conversation
  let toolUseMap := maps.1
  let toolResultMap := maps.2
  let toolResultBlocksWithoutUse := (mapKeys toolResultMap).filter (fun id => !mapHas toolUseMap id)
  let toolUseBlocksWithoutResult := (mapKeys toolUseMap).filter (fun id => !mapHas toolResultMap id)
  if toolResultBlocksWithoutUse = [] ∧ toolUseBlocksWithoutResult = [] then pruned
  else
    let toolResultMessagesWithoutUse := groupByIndex toolResultBlocksWithoutUse toolResultMap
    let toolUseMessagesWithoutResult := groupByIndex toolUseBlocksWithoutResult toolUseMap
    fixLoop toolResultMessagesWithoutUse toolUseMessagesWithoutResult pruned.length pruned

/-- Sanity check mirroring `tests/utils.test.ts`: a non-final `tool_use`
without result gets a synthetic `tool_result` message inserted after it. -/
example :
    pruneAndFixConversation
      [⟨("user"), .str ("scrape example com")⟩,
       ⟨("assistant"), .str ("I will help you scrape example.com.")⟩,
       ⟨("assistant"), .blocks [.tool_use ("tool_1") ("t") ("")]⟩,
       ⟨("user"), .blocks [.tool_result ("tool_1") (.str ("[Tool use failed]")) none none]⟩,
       ⟨("assistant"), .blocks [.tool_use ("tool_2") ("t") ("")]⟩,
       ⟨("user"), .str ("What happened?")⟩] =
      [⟨("user"), .str ("scrape example com")⟩,
       ⟨("assistant"), .str ("I will help you scrape example.com.")⟩,
       ⟨("assistant"), .blocks [.tool_use ("tool_1") ("t") ("")]⟩,
       ⟨("user"), .blocks [.tool_result ("tool_1") (.str ("[Tool use failed]")) none none]⟩,
       ⟨("assistant"), .blocks [.tool_use ("tool_2") ("t") ("")]⟩,
       dummyResultMessage [("tool_2")],
       ⟨("user"), .str ("What happened?")⟩] := by decide

/-- Sanity check (spec scenario 2): two orphaned `tool_result` blocks in one
turn get a single synthetic assistant turn with two `tool_use` blocks
inserted immediately before it. -/
example :
    pruneAndFixConversation
      [⟨("user"), .blocks [.tool_result ("a") (.str ("ra")) none none,
                           .tool_result ("b") (.str ("rb")) none none]⟩,
       ⟨("assistant"), .str ("all done")⟩] =
      [dummyUseMessage [("a"), ("b")],
       ⟨("user"), .blocks [.tool_result ("a") (.str ("ra")) none none,
                           .tool_result ("b") (.str ("rb")) none none]⟩,
       ⟨("assistant"), .str ("all done")⟩] := by decide

/-- Sanity check (spec scenario 1): a `tool_use` in the last turn is left
unresolved. -/
example :
    pruneAndFixConversation
      [⟨("user"), .str ("hi")⟩, ⟨("assistant"), .blocks [.tool_use ("t1") ("t") ("")]⟩] =
      [⟨("user"), .str ("hi")⟩, ⟨("assistant"), .blocks [.tool_use ("t1") ("t") ("")]⟩] := by
  decide

/-! ## A forward characterisation of the splice loop

The backwards loop only ever splices at the current index `m` or `m + 1`,
so earlier (lower-index) iterations are undisturbed by later ones, and the
`m === length - 1` skip test can only fire on the very first iteration
(before any splice). `goFix` rebuilds the same output front-to-back:
each message is preceded by its synthetic assistant turn (orphaned results)
and followed by its synthetic user turn (orphaned uses), the latter
suppressed on the final message (`rest = []`) and whenever the
result-branch fired for the same index (`else if`). -/

def goFix (rM uM : NatMap) : Nat → List MessageParam → List MessageParam
  | _, [] => []
  | i, x :: rest =>
      (if mapHas rM i then [dummyUseMessage (mapGetD rM i [])] else []) ++
        x :: ((if ¬mapHas rM i ∧ mapHas uM i ∧ rest ≠ [] then
                  [dummyResultMessage (mapGetD uM i [])]
                else []) ++ goFix rM uM (i + 1) rest)

/-! ## Id predicates on messages and conversations -/

def blockUseId : RBlock → Option String
  | .tool_use id _ _ => some id
  | _ => none

def blockResultId : RBlock → Option String
  | .tool_result id _ _ _ => some id
  | _ => none

def useIdsOfMsg (m : MessageParam) : List String :=
  match m.content with
  | .str _ => []
  | .blocks bs => bs.filterMap blockUseId

def resultIdsOfMsg (m : MessageParam) : List String :=
  match m.content with
  | .str _ => []
  | .blocks bs => bs.filterMap blockResultId

/-! ## Named projections of the repair pipeline -/

def uMapOf (conv : List MessageParam) : IdxMap := (collectMaps conv).1

def rMapOf (conv : List MessageParam) : IdxMap := (collectMaps conv).2

/-- `toolResultBlocksWithoutUse`. -/
def rwOf (conv : List MessageParam) : List String :=
  (mapKeys (rMapOf conv)).filter (fun id => !mapHas (uMapOf conv) id)

/-- `toolUseBlocksWithoutResult`. -/
def uwOf (conv : List MessageParam) : List String :=
  (mapKeys (uMapOf conv)).filter (fun id => !mapHas (rMapOf conv) id)

def rMsgsOf (conv : List MessageParam) : NatMap := groupByIndex (rwOf conv) (rMapOf conv)

def uMsgsOf (conv : List MessageParam) : NatMap := groupByIndex (uwOf conv) (uMapOf conv)

/-- The fold step of `groupByIndex`. -/
def groupStep (idx : IdxMap) (acc : NatMap) (id : String) : NatMap :=
  match mapGet idx id with
  | some m => mapSet acc m (mapGetD acc m [] ++ [id])
  | none => acc

/-! ## The pairing properties of repaired conversations -/

/-- No message mixes `tool_use` and `tool_result` blocks. Real conversations
satisfy this: `tool_use` blocks occur in assistant messages and `tool_result`
blocks in user messages. -/
def NoMixing (conv : List MessageParam) : Prop :=
  ∀ m ∈ conv, useIdsOfMsg m = [] ∨ resultIdsOfMsg m = []

instance (conv : List MessageParam) : Decidable (NoMixing conv) :=
  List.decidableBAll _ conv

/-- The last message (by value) of a conversation; `default` on `[]`. -/
def lastD (l : List MessageParam) : MessageParam := l.getLast?.getD default

/-! ## Claim predicates and concrete inputs -/

/-- Claim C1 as stated: every `tool_use` in a non-final turn has exactly one
matching `tool_result` block strictly later in turn order, and every
`tool_result` references an existing `tool_use` id. -/
def PairingClaim (conv : List MessageParam) : Prop :=
  (∀ i ∈ List.range conv.length, i + 1 < conv.length →
    ∀ id ∈ useIdsOfMsg (conv.getD i default),
      ((conv.drop (i + 1)).map (fun m => (resultIdsOfMsg m).count id)).sum = 1) ∧
  (∀ y ∈ conv, ∀ id ∈ resultIdsOfMsg y, ∃ z ∈ conv, id ∈ useIdsOfMsg z)

instance (conv : List MessageParam) : Decidable (PairingClaim conv) := by
  unfold PairingClaim
  infer_instance

/-- A message mixing an orphaned `tool_result` with an orphaned `tool_use`:
the repair loop's `else if` only inserts the synthetic `tool_use` turn and
never the synthetic `tool_result` turn for such a message. -/
def mixConv : List MessageParam :=
  [⟨("user"), .blocks [.tool_result ("a") (.str ("ra")) none none,
                       .tool_use ("b") ("t") ("")]⟩,
   ⟨("user"), .str ("end!")⟩]

def mixConv2 : List MessageParam :=
  [⟨("user"), .blocks [.tool_result ("c") (.str ("rc")) none none,
                       .tool_use ("d") ("t") ("")]⟩,
   ⟨("user"), .str ("over")⟩]

/-- A well-formed conversation with a trailing in-flight `tool_use`. -/
def pairConv : List MessageParam :=
  [⟨("user"), .str ("hi")⟩,
   ⟨("assistant"), .blocks [.tool_use ("t1") ("t") ("")]⟩,
   ⟨("user"), .blocks [.tool_result ("t1") (.str ("ok!")) none none]⟩,
   ⟨("assistant"), .blocks [.tool_use ("t2") ("t") ("")]⟩]

def pairConv2 : List MessageParam :=
  [⟨("user"), .str ("go?")⟩,
   ⟨("assistant"), .blocks [.tool_use ("u1") ("t") ("")]⟩,
   ⟨("user"), .blocks [.tool_result ("u1") (.str ("ok!")) none none]⟩,
   ⟨("assistant"), .blocks [.tool_use ("u2") ("t") ("")]⟩]

/-- A 400-character canonical base64 payload. -/
def longB64 : String := String.mk (List.replicate 400 ('a'))

/-- A conversation whose `tool_result` carries its payload as an array of
nested content items instead of a plain string: the redaction pass only
handles `typeof block.content === 'string'` and leaves the nested base64
untouched. -/
def nestedConv : List MessageParam :=
  [⟨("assistant"), .blocks [.tool_use ("n1") ("t") ("")]⟩,
   ⟨("user"), .blocks [.tool_result ("n1") (.items [TRItem.text longB64]) none none]⟩]

/-- Top-level string payloads of a message (the only payloads the redaction
pass inspects) are all non-base64. -/
def blockTopStringOk (b : RBlock) : Bool :=
  match b with
  | .text t _ _ => !isBase64 t
  | .tool_result _ (.str s) _ _ => !isBase64 s
  | _ => true

def msgTopStringsOk (m : MessageParam) : Bool :=
  match m.content with
  | .str s => !isBase64 s
  | .blocks bs => bs.all blockTopStringOk

/-! ## ConversationManager (src/unnamed part: the conversation manager class)

`countTokens` wraps the Anthropic count-tokens endpoint; the endpoint is an
oracle `List MessageParam → Option Nat` where `none` models the `catch`
branch returning `Infinity`. `ensureContextWindowLimit` evicts the two
oldest messages per iteration while the estimated cost exceeds the limit;
the `while` loop is given an explicit iteration budget `fuel` (the JS loop
is unbounded); an exhausted budget returns the conversation as-is, which is
sound for every claim proved below. The loop body's `try/catch` is not
modelled: none of `shift`, `pruneAndFixConversation` or `countTokens` can
throw (`countTokens` catches internally). -/

namespace ConversationManager

def MIN_CONVERSATION_LENGTH : Nat := 2

def countTokens (oracle : List MessageParam → Option Nat)
    (messages : List MessageParam) : Option Nat :=
  if messages.length = 0 then some 0 else oracle messages

/-- `currentTokens > maxContextTokens`, with `none` playing `Infinity`. -/
def tokensExceed : Option Nat → Nat → Bool
  | none, _ => true
  | some t, maxTok => decide (maxTok < t)

def ensureLoop (oracle : List MessageParam → Option Nat) (maxContextTokens : Nat) :
    Nat → List MessageParam → Option Nat → List MessageParam
  | 0, conv, _ => conv
  | fuel + 1, conv, currentTokens =>
      if tokensExceed currentTokens maxContextTokens = true ∧
          MIN_CONVERSATION_LENGTH < conv.length then
        let conv2 := pruneAndFixConversation (conv.drop 2)
        ensureLoop oracle maxContextTokens fuel conv2 (countTokens oracle conv2)
      else conv

def ensureContextWindowLimit (oracle : List MessageParam → Option Nat)
    (maxContextTokens fuel : Nat) (conversation : List MessageParam) : List MessageParam :=
  if conversation.length ≤ MIN_CONVERSATION_LENGTH then conversation
  else
    let currentTokens := countTokens oracle conversation
    if tokensExceed currentTokens maxContextTokens = false then conversation
    else
      pruneAndFixConversation
        (ensureLoop oracle maxContextTokens fuel conversation currentTokens)

/-! ### handleLLMResponse -/

structure LLMMessage where
  content : List RBlock
  deriving DecidableEq, Repr

inductive Emit where
  | str (role : String) (s : String)
  | blocks (role : String) (bs : List RBlock)
  deriving DecidableEq, Repr

structure ToolItem where
  text : Option String
  data : Option String
  deriving DecidableEq, Repr

inductive ToolOutcome where
  | ok (content : List ToolItem)
  | err (msg : String)

def limitMsg (cap : Nat) : String :=
  "Too many tool calls in a single turn! This has been implemented to prevent infinite loops.\nLimit is "
    ++ toString cap
    ++ ".\nYou can increase the limit by setting the \"maxNumberOfToolCallsPerQuery\" parameter."

def isToolUseB (b : RBlock) : Bool :=
  match b with
  | .tool_use _ _ _ => true
  | _ => false

def isTextB (b : RBlock) : Bool :=
  match b with
  | .text _ _ _ => true
  | _ => false

/-- The `for (const block of response.content)` loop of `handleLLMResponse`:
accumulates the assistant message content, the SSE emits and the collected
`tool_use` blocks; `limitHit` records that the round-limit branch pushed the
assistant message early and broke out of the loop. Block types other than
`text` and `tool_use` are ignored. -/
structure BlockPass where
  content : List RBlock
  emits : List Emit
  toolUses : List RBlock
  limitHit : Bool
  deriving DecidableEq, Repr

def processBlocks (cap round : Nat) : List RBlock → BlockPass
  | [] => ⟨[], [], [], false⟩
  | b :: rest =>
      match b with
      | .text t cc cit =>
          let r := processBlocks cap round rest
          ⟨.text t cc cit :: r.content, .str ("assistant") t :: r.emits, r.toolUses, r.limitHit⟩
      | .tool_use id name input =>
          if cap ≤ round then
            ⟨[.text (limitMsg cap) none none], [.str ("assistant") (limitMsg cap)], [], true⟩
          else
            let r := processBlocks cap round rest
            ⟨.tool_use id name input :: r.content,
             .blocks ("assistant") [.tool_use id name input] :: r.emits,
             .tool_use id name input :: r.toolUses, r.limitHit⟩
      | _ => processBlocks cap round rest

/-- One `client.callTool` invocation plus the construction of the
`tool_result` block: a returned non-empty content array is joined with
blank lines (each item contributing `x.text ?? x.data`, `undefined`
coerced to the empty string by `join`); an empty array or a thrown error
yields an `is_error` result. -/
def runTool (toolOracle : String → String → ToolOutcome) (b : RBlock) : RBlock :=
  match b with
  | .tool_use id name input =>
      match toolOracle name input with
      | .ok items =>
          if items.length ≠ 0 then
            .tool_result id (.str (String.intercalate ("\n\n")
                (items.map (fun it => ((it.text).orElse (fun _ => it.data)).getD ("")))))
              (some false) none
          else
            .tool_result id (.str ("No results retrieved from " ++ name)) (some true) none
      | .err e =>
          .tool_result id (.str ("Error when calling tool " ++ name ++ ", error: " ++ e))
            (some true) none
  | _ => b

structure HandleResult where
  conversation : List MessageParam
  emits : List Emit
  toolCalls : List (String × String)
  llmCalls : Nat
  deriving DecidableEq, Repr

/-- `handleLLMResponse`: the recursive orchestration loop. The follow-up
completion call (`createMessageWithRetry`) is abstracted as
`llmOracle round`; `llmCalls` counts how many such follow-up calls are
made, `toolCalls` records every dispatched tool invocation in order.
`fuel` bounds the recursion depth (the JS recursion is bounded by the
round-limit branch, which the theorems below make precise). -/
def handleLLMResponse (toolOracle : String → String → ToolOutcome)
    (llmOracle : Nat → LLMMessage) (cap : Nat) :
    Nat → List MessageParam → LLMMessage → Nat → HandleResult
  | 0, conversation, _, _ => ⟨conversation, [], [], 0⟩
  | fuel + 1, conversation, response, round =>
      let p := processBlocks cap round response.content
      let assistantMessage : MessageParam := ⟨("assistant"), .blocks p.content⟩
      let conv1 := conversation ++
        (if p.limitHit then [assistantMessage] else []) ++ [assistantMessage]
      if p.toolUses.isEmpty then ⟨conv1, p.emits, [], 0⟩
      else
        let resultBlocks := p.toolUses.map (runTool toolOracle)
        let conv2 := conv1 ++ [⟨("user"), .blocks resultBlocks⟩]
        let deeper := handleLLMResponse toolOracle llmOracle cap fuel conv2
          (llmOracle round) (round + 1)
        ⟨deeper.conversation,
         p.emits ++ resultBlocks.map (fun rb => Emit.blocks ("user") [rb]) ++ deeper.emits,
         p.toolUses.filterMap (fun b =>
           match b with
           | .tool_use _ name input => some (name, input)
           | _ => none) ++ deeper.toolCalls,
         1 + deeper.llmCalls⟩

/-! ### createMessageWithRetry -/

inductive AttemptOutcome where
  | ok (response : LLMMessage)
  | err (message : String)
  deriving DecidableEq, Repr

/-- `pat` is a prefix of `hay`. -/
def listPrefixOf : List Char → List Char → Bool
  | [], _ => true
  | _ :: _, [] => false
  | p :: ps, h :: hs => p = h && listPrefixOf ps hs

def containsSub : List Char → List Char → Bool
  | hay, pat =>
      match hay with
      | [] => pat.isEmpty
      | _ :: rest => listPrefixOf pat hay || containsSub rest pat

/-- `error.message.includes(pat)`. -/
def hasSubstr (s pat : String) : Bool := containsSub s.data pat.data

def rateLimitMsg (maxRetries : Nat) : String :=
  "Rate limit exceeded after " ++ toString maxRetries
    ++ " attempts. Please try again in a few minutes or consider switching to a different model"

def overloadMsg : String :=
  "Server is currently experiencing high load. Please try again in a few moments or consider switching to a different model."

deriving instance DecidableEq for Except

structure RetryRun where
  result : Except String LLMMessage
  delays : List Nat
  attempts : Nat
  deriving DecidableEq, Repr

/-- The `for (attempt = 1; attempt <= maxRetries; attempt++)` retry loop of
the conversation manager, with `rem = maxRetries - attempt + 1` as fuel.
`delays` records every `setTimeout` backoff in order; `attempts` counts the
completion calls actually made. -/
def retryLoop (oracle : Nat → AttemptOutcome) (maxRetries retryDelayMs : Nat) :
    Nat → Nat → Option String → RetryRun
  | 0, attempt, lastError =>
      ⟨.error ((lastError).getD ("Unknown error after retries in createMessageWithRetry")),
       [], attempt - 1⟩
  | rem + 1, attempt, _ =>
      match oracle attempt with
      | .ok response => ⟨.ok response, [], attempt⟩
      | .err e =>
          if hasSubstr e ("429") || hasSubstr e ("529") then
            if attempt < maxRetries then
              let r := retryLoop oracle maxRetries retryDelayMs rem (attempt + 1) (some e)
              ⟨r.result, attempt * retryDelayMs :: r.delays, r.attempts⟩
            else
              ⟨.error (if hasSubstr e ("429") then rateLimitMsg maxRetries else overloadMsg),
               [], attempt⟩
          else ⟨.error e, [], attempt⟩

/-- `createMessageWithRetry` of the conversation manager: repair, then
context-window enforcement, then the bounded retry loop; attempt outcomes
are an oracle indexed by attempt number. Returns the normalised
conversation together with the retry run. -/
def createMessageWithRetry (tokenOracle : List MessageParam → Option Nat)
    (oracle : Nat → AttemptOutcome) (conversation : List MessageParam)
    (maxContextTokens ensureFuel maxRetries retryDelayMs : Nat) :
    List MessageParam × RetryRun :=
  let conv1 := pruneAndFixConversation conversation
  let conv2 := ensureContextWindowLimit tokenOracle maxContextTokens ensureFuel conv1
  (conv2, retryLoop oracle maxRetries retryDelayMs maxRetries 1 none)

end ConversationManager

/-! ## MCPClient.createMessageWithRetry (src/mcpClient.ts) -/

namespace MCPClient

/-- Leftmost match of `/toolu_[A-Za-z0-9]+/`. -/
def extractAux : List Char → Option String
  | [] => none
  | c :: rest =>
      if ConversationManager.listPrefixOf (("toolu_").data) (c :: rest) then
        let run := ((c :: rest).drop 6).takeWhile Char.isAlphanum
        if run ≠ [] then some (String.mk (("toolu_").data ++ run))
        else extractAux rest
      else extractAux rest

def extractToolUseId (s : String) : Option String := extractAux s.data

/-- `messages.findIndex(msg => msg.content.some(b => b.type === 'tool_use'
&& b.id === toolUseId))`. -/
def locateToolUse (msgs : List MessageParam) (tid : String) : Option Nat :=
  msgs.findIdx? (fun msg => (useIdsOfMsg msg).contains tid)

structure McpRun where
  result : Except String ConversationManager.LLMMessage
  messages : List MessageParam
  delays : List Nat
  attempts : Nat
  deriving DecidableEq, Repr

/-- The retry loop of `MCPClient.createMessageWithRetry`: like the
conversation manager's loop, but with an extra branch for the completion
service's "`tool_use` ids were found without `tool_result` blocks"
structural rejection, which splices the offending message out of the local
`messages` array and `continue`s (advancing `attempt`) without any backoff
delay. -/
def mcpRetryLoop (oracle : Nat → ConversationManager.AttemptOutcome)
    (maxRetries retryDelayMs : Nat) :
    Nat → Nat → List MessageParam → Option String → McpRun
  | 0, attempt, messages, lastError =>
      ⟨.error ((lastError).getD ("null")), messages, [], attempt - 1⟩
  | rem + 1, attempt, messages, _ =>
      match oracle attempt with
      | .ok response => ⟨.ok response, messages, [], attempt⟩
      | .err e =>
          if ConversationManager.hasSubstr e ("429") ||
              ConversationManager.hasSubstr e ("529") then
            if attempt < maxRetries then
              let r := mcpRetryLoop oracle maxRetries retryDelayMs rem (attempt + 1)
                messages (some e)
              ⟨r.result, r.messages, attempt * retryDelayMs :: r.delays, r.attempts⟩
            else
              ⟨.error (if ConversationManager.hasSubstr e ("429") then
                  ConversationManager.rateLimitMsg maxRetries
                else ConversationManager.overloadMsg), messages, [], attempt⟩
          else if ConversationManager.hasSubstr e ("tool_use") &&
              ConversationManager.hasSubstr e ("without tool_result blocks") then
            match extractToolUseId e with
            | some tid =>
                match locateToolUse messages tid with
                | some i =>
                    mcpRetryLoop oracle maxRetries retryDelayMs rem (attempt + 1)
                      (messages.eraseIdx i) (some e)
                | none => ⟨.error e, messages, [], attempt⟩
            | none => ⟨.error e, messages, [], attempt⟩
          else ⟨.error e, messages, [], attempt⟩

def createMessageWithRetry (oracle : Nat → ConversationManager.AttemptOutcome)
    (messages : List MessageParam) (maxRetries retryDelayMs : Nat) : McpRun :=
  mcpRetryLoop oracle maxRetries retryDelayMs maxRetries 1 messages none

end MCPClient

/-! ### Concrete inputs for C5 -/

def oddConv : List MessageParam :=
  [⟨("user"), .str ("q1?")⟩, ⟨("user"), .str ("q2?")⟩, ⟨("user"), .str ("q3?")⟩]

def twoConv : List MessageParam :=
  [⟨("user"), .str ("a?")⟩, ⟨("assistant"), .str ("b!")⟩]

def bigOracle : List MessageParam → Option Nat := fun _ => some 1000000

/-- Evicting the two leading assistant messages orphans three `tool_result`
messages, so the repair inserts three synthetic `tool_use` turns: the
conversation grows from 5 to 6 messages. -/
def growConv : List MessageParam :=
  [⟨("assistant"), .blocks [.tool_use ("g1") ("t") ("")]⟩,
   ⟨("assistant"), .blocks [.tool_use ("g2") ("t") (""), .tool_use ("g3") ("t") ("")]⟩,
   ⟨("user"), .blocks [.tool_result ("g1") (.str ("r1!")) none none]⟩,
   ⟨("user"), .blocks [.tool_result ("g2") (.str ("r2!")) none none]⟩,
   ⟨("user"), .blocks [.tool_result ("g3") (.str ("r3!")) none none]⟩]

def growOracle : List MessageParam → Option Nat :=
  fun msgs => if msgs.length = 5 then some 1000 else some 1

/-! ### Claim C8: failing token estimation -/

def failOracle : List MessageParam → Option Nat := fun _ => none

def msgIsString (m : MessageParam) : Bool :=
  match m.content with
  | .str _ => true
  | _ => false

def AllStrings (conv : List MessageParam) : Prop := ∀ m ∈ conv, msgIsString m = true

instance (conv : List MessageParam) : Decidable (AllStrings conv) :=
  List.decidableBAll _ conv

def sixConv : List MessageParam :=
  [⟨("user"), .str ("m1?")⟩, ⟨("assistant"), .str ("m2!")⟩,
   ⟨("user"), .str ("m3?")⟩, ⟨("assistant"), .str ("m4!")⟩,
   ⟨("user"), .str ("m5?")⟩, ⟨("assistant"), .str ("m6!")⟩]

def fiveConv : List MessageParam :=
  [⟨("user"), .str ("n1?")⟩, ⟨("assistant"), .str ("n2!")⟩,
   ⟨("user"), .str ("n3?")⟩, ⟨("assistant"), .str ("n4!")⟩,
   ⟨("user"), .str ("n5?")⟩]

/-! ### Concrete inputs for C10 and C4 -/

def resp10 : ConversationManager.LLMMessage :=
  ⟨[.text ("thinking...") none none, .tool_use ("x1") ("t") ("i")]⟩

def okToolOracle : String → String → ConversationManager.ToolOutcome :=
  fun _ _ => .ok [⟨some ("ok"), none⟩]

def emptyLLM : Nat → ConversationManager.LLMMessage := fun _ => ⟨[]⟩

def resp3 : ConversationManager.LLMMessage :=
  ⟨[.tool_use ("c41") ("t1") ("i1"), .tool_use ("c42") ("t2") ("i2"),
    .tool_use ("c43") ("t3") ("i3")]⟩

def okTok : List MessageParam → Option Nat := fun _ => some 1

def oracle429 : Nat → ConversationManager.AttemptOutcome :=
  fun _ => .err ("Request failed with status code 429: rate limited")

def structErr : String :=
  "messages.0: tool_use ids were found without tool_result blocks: toolu_A1"

def msgs7 : List MessageParam :=
  [⟨("assistant"), .blocks [.tool_use ("toolu_A1") ("t") ("")]⟩,
   ⟨("user"), .str ("ok!")⟩]

def oracle7 : Nat → ConversationManager.AttemptOutcome :=
  fun n =>
    if n = 1 then .err structErr
    else if n = 2 then .err ("Request failed with status code 429")
    else .ok ⟨[]⟩

theorem goFix_nil (rM uM : NatMap) (i : Nat) : goFix rM uM i [] = [] := rfl

theorem goFix_cons (rM uM : NatMap) (i : Nat) (x : MessageParam) (rest : List MessageParam) :
    goFix rM uM i (x :: rest) =
      (if mapHas rM i then [dummyUseMessage (mapGetD rM i [])] else []) ++
        x :: ((if ¬mapHas rM i ∧ mapHas uM i ∧ rest ≠ [] then
                  [dummyResultMessage (mapGetD uM i [])]
                else []) ++ goFix rM uM (i + 1) rest) := rfl

theorem goFix_eq_nil_iff (rM uM : NatMap) (i : Nat) (xs : List MessageParam) :
    goFix rM uM i xs = [] ↔ xs = [] := by
  cases xs with
  | nil => simp [goFix]
  | cons x rest =>
      simp only [goFix, List.append_eq_nil]
      constructor
      · rintro ⟨-, h⟩; cases h
      · intro h; cases h

theorem insertAt_of_length_eq (A rest : List MessageParam) (x : MessageParam) (k : Nat)
    (hA : A.length = k) : insertAt (A ++ rest) k x = A ++ x :: rest := by
  unfold insertAt
  rw [List.take_left' hA, List.drop_left' hA]

theorem fixLoop_take (rM uM : NatMap) (conv : List MessageParam) :
    ∀ k, k ≤ conv.length →
      fixLoop rM uM k (conv.take k ++ goFix rM uM k (conv.drop k)) = goFix rM uM 0 conv := by
  intro k
  induction k with
  | zero => intro _; simp [fixLoop]
  | succ k ih =>
      intro hk
      have hklt : k < conv.length := Nat.lt_of_succ_le hk
      have hdrop : conv.drop k = conv[k] :: conv.drop (k + 1) :=
        List.drop_eq_getElem_cons hklt
      have htake : conv.take (k + 1) = conv.take k ++ [conv[k]] := by
        rw [List.take_succ, List.getElem?_eq_getElem hklt]
        rfl
      have htklen : (conv.take k).length = k := by
        simp [List.length_take, Nat.min_eq_left (Nat.le_of_lt hklt)]
      set x := conv[k] with hx
      set T := goFix rM uM (k + 1) (conv.drop (k + 1)) with hT
      have hL0 : conv.take (k + 1) ++ T = conv.take k ++ x :: T := by
        rw [htake]; simp
      have hgoal :
          (if mapHas rM k then
              insertAt (conv.take k ++ x :: T) k (dummyUseMessage (mapGetD rM k []))
            else if mapHas uM k then
              if k = (conv.take k ++ x :: T).length - 1 then conv.take k ++ x :: T
              else insertAt (conv.take k ++ x :: T) (k + 1) (dummyResultMessage (mapGetD uM k []))
            else conv.take k ++ x :: T) =
            conv.take k ++ goFix rM uM k (conv.drop k) := by
        have hlen : (conv.take k ++ x :: T).length = k + 1 + T.length := by
          simp [htklen]; omega
        have hins1 :
            insertAt (conv.take k ++ x :: T) k (dummyUseMessage (mapGetD rM k [])) =
              conv.take k ++ dummyUseMessage (mapGetD rM k []) :: x :: T :=
          insertAt_of_length_eq (conv.take k) (x :: T) _ k htklen
        have hins2 :
            insertAt (conv.take k ++ x :: T) (k + 1) (dummyResultMessage (mapGetD uM k [])) =
              conv.take k ++ x :: dummyResultMessage (mapGetD uM k []) :: T := by
          have hlen1 : (conv.take k ++ [x]).length = k + 1 := by simp [htklen]
          have h := insertAt_of_length_eq (conv.take k ++ [x]) T
            (dummyResultMessage (mapGetD uM k [])) (k + 1) hlen1
          simpa using h
        rw [hdrop, goFix_cons, ← hT]
        cases hr : mapHas rM k with
        | true => simp [hins1]
        | false =>
            cases hu : mapHas uM k with
            | false => simp
            | true =>
                by_cases hrest : conv.drop (k + 1) = []
                · have hTnil : T = [] := by
                    rw [hT, hrest]; rfl
                  have hcond : k = (conv.take k ++ x :: T).length - 1 := by
                    rw [hlen, hTnil]; simp
                  simp only [Bool.not_eq_true, if_true, if_false, Bool.true_eq_false,
                    Bool.false_eq_true]
                  rw [if_pos hcond]
                  simp [hrest]
                · have hTne : T ≠ [] := by
                    rw [hT]
                    intro hcontra
                    exact hrest ((goFix_eq_nil_iff rM uM (k + 1) (conv.drop (k + 1))).mp hcontra)
                  have hcond : ¬k = (conv.take k ++ x :: T).length - 1 := by
                    rw [hlen]
                    have : T.length ≠ 0 := fun h0 => hTne (List.length_eq_zero.mp h0)
                    omega
                  simp only [Bool.not_eq_true, if_true, if_false, Bool.true_eq_false,
                    Bool.false_eq_true]
                  rw [if_neg hcond, hins2]
                  simp [hrest]
      calc fixLoop rM uM (k + 1) (conv.take (k + 1) ++ goFix rM uM (k + 1) (conv.drop (k + 1)))
          = fixLoop rM uM k (conv.take k ++ goFix rM uM k (conv.drop k)) := by
            rw [← hT, hL0]
            rw [show fixLoop rM uM (k + 1) (conv.take k ++ x :: T) =
              fixLoop rM uM k
                (if mapHas rM k then
                    insertAt (conv.take k ++ x :: T) k (dummyUseMessage (mapGetD rM k []))
                  else if mapHas uM k then
                    if k = (conv.take k ++ x :: T).length - 1 then conv.take k ++ x :: T
                    else insertAt (conv.take k ++ x :: T) (k + 1)
                      (dummyResultMessage (mapGetD uM k []))
                  else conv.take k ++ x :: T) from rfl]
            rw [hgoal]
        _ = goFix rM uM 0 conv := ih (Nat.le_of_lt hklt)

theorem fixLoop_eq_goFix (rM uM : NatMap) (conv : List MessageParam) :
    fixLoop rM uM conv.length conv = goFix rM uM 0 conv := by
  have h := fixLoop_take rM uM conv conv.length (Nat.le_refl _)
  rw [List.take_length, List.drop_length, goFix_nil, List.append_nil] at h
  exact h

/-! ## Basic facts about the map model -/

section MapLemmas

variable {κ ν : Type} [DecidableEq κ]

theorem mapGet_set_self (l : List (κ × ν)) (k : κ) (v : ν) :
    mapGet (mapSet l k v) k = some v := by
  induction l with
  | nil => simp [mapSet, mapGet]
  | cons p rest ih =>
      by_cases h : p.1 = k
      · simp [mapSet, mapGet, h]
      · simp [mapSet, mapGet, h, ih]

theorem mapGet_set_ne (l : List (κ × ν)) (k k' : κ) (v : ν) (h : k' ≠ k) :
    mapGet (mapSet l k v) k' = mapGet l k' := by
  have hk : ¬k = k' := Ne.symm h
  induction l with
  | nil => simp [mapSet, mapGet, hk]
  | cons p rest ih =>
      by_cases hp : p.1 = k
      · have hp' : ¬p.1 = k' := by rw [hp]; exact hk
        simp [mapSet, mapGet, hp, hk, hp']
      · by_cases hp' : p.1 = k'
        · simp [mapSet, mapGet, hp, hp', h]
        · simp [mapSet, mapGet, hp, hp', ih]

theorem mem_mapSet (l : List (κ × ν)) (k : κ) (v : ν) (p : κ × ν) :
    p ∈ mapSet l k v → p ∈ l ∨ p = (k, v) := by
  induction l with
  | nil => intro h; simp [mapSet] at h; exact Or.inr h
  | cons q rest ih =>
      intro h
      by_cases hq : q.1 = k
      · simp only [mapSet, if_pos hq, List.mem_cons] at h
        rcases h with h | h
        · exact Or.inr h
        · exact Or.inl (List.mem_cons_of_mem _ h)
      · simp only [mapSet, if_neg hq, List.mem_cons] at h
        rcases h with h | h
        · exact Or.inl (h ▸ List.mem_cons_self _ _)
        · rcases ih h with h' | h'
          · exact Or.inl (List.mem_cons_of_mem _ h')
          · exact Or.inr h'

theorem mapGet_mem (l : List (κ × ν)) (k : κ) (v : ν) :
    mapGet l k = some v → (k, v) ∈ l := by
  induction l with
  | nil => intro h; simp [mapGet] at h
  | cons p rest ih =>
      intro h
      by_cases hp : p.1 = k
      · simp only [mapGet, if_pos hp, Option.some.injEq] at h
        have : p = (k, v) := Prod.ext hp h
        exact this ▸ List.mem_cons_self _ _
      · simp only [mapGet, if_neg hp] at h
        exact List.mem_cons_of_mem _ (ih h)

theorem mapHas_iff_get (l : List (κ × ν)) (k : κ) :
    mapHas l k = true ↔ ∃ v, mapGet l k = some v := by
  simp [mapHas, Option.isSome_iff_exists]

theorem mapHas_of_mem (l : List (κ × ν)) (p : κ × ν) (h : p ∈ l) :
    mapHas l p.1 = true := by
  induction l with
  | nil => cases h
  | cons q rest ih =>
      rcases List.mem_cons.mp h with h' | h'
      · subst h'; simp [mapHas, mapGet]
      · by_cases hq : q.1 = p.1
        · simp [mapHas, mapGet, hq]
        · simpa [mapHas, mapGet, hq] using ih h'

theorem mem_mapKeys_iff (l : List (κ × ν)) (k : κ) :
    k ∈ mapKeys l ↔ ∃ v, (k, v) ∈ l := by
  simp only [mapKeys, List.mem_map]
  constructor
  · rintro ⟨p, hp, rfl⟩; exact ⟨p.2, hp⟩
  · rintro ⟨v, hv⟩; exact ⟨(k, v), hv, rfl⟩

theorem mapKeys_has_iff (l : List (κ × ν)) (k : κ) :
    k ∈ mapKeys l ↔ mapHas l k = true := by
  rw [mem_mapKeys_iff, mapHas_iff_get]
  constructor
  · rintro ⟨v, hv⟩
    have := mapHas_of_mem l (k, v) hv
    exact (mapHas_iff_get l k).mp this
  · rintro ⟨v, hv⟩; exact ⟨v, mapGet_mem l k v hv⟩

end MapLemmas

/-! ## Characterisation of `collectMaps` -/

theorem blockScan_fst_mem (m : Nat) (bs : List RBlock) (acc : IdxMap × IdxMap)
    (p : String × Nat) (h : p ∈ (bs.foldl (blockScan m) acc).1) :
    p ∈ acc.1 ∨ (p.2 = m ∧ p.1 ∈ bs.filterMap blockUseId) := by
  induction bs generalizing acc with
  | nil => exact Or.inl h
  | cons b rest ih =>
      rw [List.foldl_cons] at h
      rcases ih (blockScan m acc b) h with h' | h'
      · cases b with
        | tool_use id name input =>
            rcases mem_mapSet acc.1 id m p h' with h'' | h''
            · exact Or.inl h''
            · refine Or.inr ⟨by rw [h''], ?_⟩
              rw [h'']
              simp [blockUseId]
        | text t cc cit => exact Or.inl h'
        | tool_result id c ie cc => exact Or.inl h'
        | image d => exact Or.inl h'
      · refine Or.inr ⟨h'.1, ?_⟩
        rw [List.filterMap_cons]
        cases heq : blockUseId b with
        | none => exact h'.2
        | some v => exact List.mem_cons_of_mem _ h'.2

theorem blockScan_snd_mem (m : Nat) (bs : List RBlock) (acc : IdxMap × IdxMap)
    (p : String × Nat) (h : p ∈ (bs.foldl (blockScan m) acc).2) :
    p ∈ acc.2 ∨ (p.2 = m ∧ p.1 ∈ bs.filterMap blockResultId) := by
  induction bs generalizing acc with
  | nil => exact Or.inl h
  | cons b rest ih =>
      rw [List.foldl_cons] at h
      rcases ih (blockScan m acc b) h with h' | h'
      · cases b with
        | tool_result id c ie cc =>
            rcases mem_mapSet acc.2 id m p h' with h'' | h''
            · exact Or.inl h''
            · refine Or.inr ⟨by rw [h''], ?_⟩
              rw [h'']
              simp [blockResultId]
        | text t cc cit => exact Or.inl h'
        | tool_use id name input => exact Or.inl h'
        | image d => exact Or.inl h'
      · refine Or.inr ⟨h'.1, ?_⟩
        rw [List.filterMap_cons]
        cases heq : blockResultId b with
        | none => exact h'.2
        | some v => exact List.mem_cons_of_mem _ h'.2

theorem blockScan_fst_get_keep (m : Nat) (bs : List RBlock) (acc : IdxMap × IdxMap)
    (id : String) (h : mapGet acc.1 id = some m) :
    mapGet (bs.foldl (blockScan m) acc).1 id = some m := by
  induction bs generalizing acc with
  | nil => exact h
  | cons b rest ih =>
      rw [List.foldl_cons]
      refine ih (blockScan m acc b) ?_
      cases b with
      | tool_use id' name input =>
          by_cases hid : id = id'
          · subst hid; exact mapGet_set_self acc.1 id m
          · rw [show (blockScan m acc (RBlock.tool_use id' name input)).1 =
              mapSet acc.1 id' m from rfl, mapGet_set_ne acc.1 id' id m hid]
            exact h
      | text t cc cit => exact h
      | tool_result id' c ie cc => exact h
      | image d => exact h

theorem blockScan_fst_get_in (m : Nat) (bs : List RBlock) (acc : IdxMap × IdxMap)
    (id : String) (h : id ∈ bs.filterMap blockUseId) :
    mapGet (bs.foldl (blockScan m) acc).1 id = some m := by
  induction bs generalizing acc with
  | nil => cases h
  | cons b rest ih =>
      rw [List.foldl_cons]
      rw [List.filterMap_cons] at h
      cases heq : blockUseId b with
      | some v =>
          rw [heq] at h
          rcases List.mem_cons.mp h with h' | h'
          · subst h'
            cases b with
            | tool_use id' name input =>
                have hid' : id' = id := by
                  simp [blockUseId] at heq; exact heq
                refine blockScan_fst_get_keep m rest
                  (blockScan m acc (RBlock.tool_use id' name input)) id ?_
                show mapGet (mapSet acc.1 id' m) id = some m
                rw [hid']
                exact mapGet_set_self acc.1 id m
            | text t cc cit => simp [blockUseId] at heq
            | tool_result i c ie cc => simp [blockUseId] at heq
            | image d => simp [blockUseId] at heq
          · exact ih (blockScan m acc b) h'
      | none =>
          rw [heq] at h
          exact ih (blockScan m acc b) h

theorem blockScan_fst_get_out (m : Nat) (bs : List RBlock) (acc : IdxMap × IdxMap)
    (id : String) (h : id ∉ bs.filterMap blockUseId) :
    mapGet (bs.foldl (blockScan m) acc).1 id = mapGet acc.1 id := by
  induction bs generalizing acc with
  | nil => rfl
  | cons b rest ih =>
      rw [List.foldl_cons]
      rw [List.filterMap_cons] at h
      have hrest : id ∉ rest.filterMap blockUseId := by
        intro hmem
        apply h
        cases blockUseId b with
        | some v => exact List.mem_cons_of_mem _ hmem
        | none => exact hmem
      rw [ih (blockScan m acc b) hrest]
      cases b with
      | tool_use id' name input =>
          have hne : id ≠ id' := by
            intro hcontra
            apply h
            show id ∈ id' :: rest.filterMap blockUseId
            rw [hcontra]
            exact List.mem_cons_self _ _
          exact mapGet_set_ne acc.1 id' id m hne
      | text t cc cit => rfl
      | tool_result id' c ie cc => rfl
      | image d => rfl

theorem blockScan_snd_get_keep (m : Nat) (bs : List RBlock) (acc : IdxMap × IdxMap)
    (id : String) (h : mapGet acc.2 id = some m) :
    mapGet (bs.foldl (blockScan m) acc).2 id = some m := by
  induction bs generalizing acc with
  | nil => exact h
  | cons b rest ih =>
      rw [List.foldl_cons]
      refine ih (blockScan m acc b) ?_
      cases b with
      | tool_result id' c ie cc =>
          by_cases hid : id = id'
          · subst hid; exact mapGet_set_self acc.2 id m
          · rw [show (blockScan m acc (RBlock.tool_result id' c ie cc)).2 =
              mapSet acc.2 id' m from rfl, mapGet_set_ne acc.2 id' id m hid]
            exact h
      | text t cc cit => exact h
      | tool_use id' name input => exact h
      | image d => exact h

theorem blockScan_snd_get_in (m : Nat) (bs : List RBlock) (acc : IdxMap × IdxMap)
    (id : String) (h : id ∈ bs.filterMap blockResultId) :
    mapGet (bs.foldl (blockScan m) acc).2 id = some m := by
  induction bs generalizing acc with
  | nil => cases h
  | cons b rest ih =>
      rw [List.foldl_cons]
      rw [List.filterMap_cons] at h
      cases heq : blockResultId b with
      | some v =>
          rw [heq] at h
          rcases List.mem_cons.mp h with h' | h'
          · subst h'
            cases b with
            | tool_result id' c ie cc =>
                have hid' : id' = id := by
                  simp [blockResultId] at heq; exact heq
                refine blockScan_snd_get_keep m rest
                  (blockScan m acc (RBlock.tool_result id' c ie cc)) id ?_
                show mapGet (mapSet acc.2 id' m) id = some m
                rw [hid']
                exact mapGet_set_self acc.2 id m
            | text t cc cit => simp [blockResultId] at heq
            | tool_use i name input => simp [blockResultId] at heq
            | image d => simp [blockResultId] at heq
          · exact ih (blockScan m acc b) h'
      | none =>
          rw [heq] at h
          exact ih (blockScan m acc b) h

theorem blockScan_snd_get_out (m : Nat) (bs : List RBlock) (acc : IdxMap × IdxMap)
    (id : String) (h : id ∉ bs.filterMap blockResultId) :
    mapGet (bs.foldl (blockScan m) acc).2 id = mapGet acc.2 id := by
  induction bs generalizing acc with
  | nil => rfl
  | cons b rest ih =>
      rw [List.foldl_cons]
      rw [List.filterMap_cons] at h
      have hrest : id ∉ rest.filterMap blockResultId := by
        intro hmem
        apply h
        cases blockResultId b with
        | some v => exact List.mem_cons_of_mem _ hmem
        | none => exact hmem
      rw [ih (blockScan m acc b) hrest]
      cases b with
      | tool_result id' c ie cc =>
          have hne : id ≠ id' := by
            intro hcontra
            apply h
            show id ∈ id' :: rest.filterMap blockResultId
            rw [hcontra]
            exact List.mem_cons_self _ _
          exact mapGet_set_ne acc.2 id' id m hne
      | text t cc cit => rfl
      | tool_use id' name input => rfl
      | image d => rfl

/-! `msgScan`-level versions. -/

theorem msgScan_fst_mem (m : Nat) (acc : IdxMap × IdxMap) (msg : MessageParam)
    (p : String × Nat) (h : p ∈ (msgScan m acc msg).1) :
    p ∈ acc.1 ∨ (p.2 = m ∧ p.1 ∈ useIdsOfMsg msg) := by
  obtain ⟨role, content⟩ := msg
  cases content with
  | str s => exact Or.inl h
  | blocks bs =>
      rcases blockScan_fst_mem m bs acc p h with h' | h'
      · exact Or.inl h'
      · exact Or.inr ⟨h'.1, h'.2⟩

theorem msgScan_snd_mem (m : Nat) (acc : IdxMap × IdxMap) (msg : MessageParam)
    (p : String × Nat) (h : p ∈ (msgScan m acc msg).2) :
    p ∈ acc.2 ∨ (p.2 = m ∧ p.1 ∈ resultIdsOfMsg msg) := by
  obtain ⟨role, content⟩ := msg
  cases content with
  | str s => exact Or.inl h
  | blocks bs =>
      rcases blockScan_snd_mem m bs acc p h with h' | h'
      · exact Or.inl h'
      · exact Or.inr ⟨h'.1, h'.2⟩

theorem msgScan_fst_get_in (m : Nat) (acc : IdxMap × IdxMap) (msg : MessageParam)
    (id : String) (h : id ∈ useIdsOfMsg msg) :
    mapGet (msgScan m acc msg).1 id = some m := by
  obtain ⟨role, content⟩ := msg
  cases content with
  | str s => cases h
  | blocks bs => exact blockScan_fst_get_in m bs acc id h

theorem msgScan_fst_get_out (m : Nat) (acc : IdxMap × IdxMap) (msg : MessageParam)
    (id : String) (h : id ∉ useIdsOfMsg msg) :
    mapGet (msgScan m acc msg).1 id = mapGet acc.1 id := by
  obtain ⟨role, content⟩ := msg
  cases content with
  | str s => rfl
  | blocks bs => exact blockScan_fst_get_out m bs acc id h

theorem msgScan_snd_get_in (m : Nat) (acc : IdxMap × IdxMap) (msg : MessageParam)
    (id : String) (h : id ∈ resultIdsOfMsg msg) :
    mapGet (msgScan m acc msg).2 id = some m := by
  obtain ⟨role, content⟩ := msg
  cases content with
  | str s => cases h
  | blocks bs => exact blockScan_snd_get_in m bs acc id h

theorem msgScan_snd_get_out (m : Nat) (acc : IdxMap × IdxMap) (msg : MessageParam)
    (id : String) (h : id ∉ resultIdsOfMsg msg) :
    mapGet (msgScan m acc msg).2 id = mapGet acc.2 id := by
  obtain ⟨role, content⟩ := msg
  cases content with
  | str s => rfl
  | blocks bs => exact blockScan_snd_get_out m bs acc id h

/-! `collectMapsAux`-level versions. -/

theorem collectAux_fst_mem (ms : List MessageParam) (m0 : Nat) (acc : IdxMap × IdxMap)
    (p : String × Nat) (h : p ∈ (collectMapsAux ms m0 acc).1) :
    p ∈ acc.1 ∨ (m0 ≤ p.2 ∧ p.2 < m0 + ms.length ∧
      p.1 ∈ useIdsOfMsg (ms.getD (p.2 - m0) default)) := by
  induction ms generalizing m0 acc with
  | nil => exact Or.inl h
  | cons msg rest ih =>
      rcases ih (m0 + 1) (msgScan m0 acc msg) h with h' | h'
      · rcases msgScan_fst_mem m0 acc msg p h' with h'' | h''
        · exact Or.inl h''
        · refine Or.inr ⟨le_of_eq h''.1.symm, ?_, ?_⟩
          · rw [h''.1]; simp
          · rw [h''.1, Nat.sub_self, List.getD_cons_zero]; exact h''.2
      · obtain ⟨h1, h2, h3⟩ := h'
        refine Or.inr ⟨by omega, by simp; omega, ?_⟩
        have hsub : p.2 - m0 = (p.2 - (m0 + 1)) + 1 := by omega
        rw [hsub, List.getD_cons_succ]
        exact h3

theorem collectAux_snd_mem (ms : List MessageParam) (m0 : Nat) (acc : IdxMap × IdxMap)
    (p : String × Nat) (h : p ∈ (collectMapsAux ms m0 acc).2) :
    p ∈ acc.2 ∨ (m0 ≤ p.2 ∧ p.2 < m0 + ms.length ∧
      p.1 ∈ resultIdsOfMsg (ms.getD (p.2 - m0) default)) := by
  induction ms generalizing m0 acc with
  | nil => exact Or.inl h
  | cons msg rest ih =>
      rcases ih (m0 + 1) (msgScan m0 acc msg) h with h' | h'
      · rcases msgScan_snd_mem m0 acc msg p h' with h'' | h''
        · exact Or.inl h''
        · refine Or.inr ⟨le_of_eq h''.1.symm, ?_, ?_⟩
          · rw [h''.1]; simp
          · rw [h''.1, Nat.sub_self, List.getD_cons_zero]; exact h''.2
      · obtain ⟨h1, h2, h3⟩ := h'
        refine Or.inr ⟨by omega, by simp; omega, ?_⟩
        have hsub : p.2 - m0 = (p.2 - (m0 + 1)) + 1 := by omega
        rw [hsub, List.getD_cons_succ]
        exact h3

theorem collectAux_fst_get_mono (ms : List MessageParam) (m0 : Nat) (acc : IdxMap × IdxMap)
    (id : String) (mv : Nat) (h : mapGet acc.1 id = some mv) :
    ∃ m', mapGet (collectMapsAux ms m0 acc).1 id = some m' ∧ (m' = mv ∨ m0 ≤ m') := by
  induction ms generalizing m0 acc mv h with
  | nil => exact ⟨mv, h, Or.inl rfl⟩
  | cons msg rest ih =>
      by_cases hin : id ∈ useIdsOfMsg msg
      · obtain ⟨m', hm', hor⟩ := ih (m0 + 1) (msgScan m0 acc msg) m0
          (msgScan_fst_get_in m0 acc msg id hin)
        refine ⟨m', hm', Or.inr ?_⟩
        rcases hor with h' | h'
        · omega
        · omega
      · have hout : mapGet (msgScan m0 acc msg).1 id = some mv :=
          (msgScan_fst_get_out m0 acc msg id hin).trans h
        obtain ⟨m', hm', hor⟩ := ih (m0 + 1) (msgScan m0 acc msg) mv hout
        refine ⟨m', hm', ?_⟩
        rcases hor with h' | h'
        · exact Or.inl h'
        · exact Or.inr (by omega)

theorem collectAux_snd_get_mono (ms : List MessageParam) (m0 : Nat) (acc : IdxMap × IdxMap)
    (id : String) (mv : Nat) (h : mapGet acc.2 id = some mv) :
    ∃ m', mapGet (collectMapsAux ms m0 acc).2 id = some m' ∧ (m' = mv ∨ m0 ≤ m') := by
  induction ms generalizing m0 acc mv h with
  | nil => exact ⟨mv, h, Or.inl rfl⟩
  | cons msg rest ih =>
      by_cases hin : id ∈ resultIdsOfMsg msg
      · obtain ⟨m', hm', hor⟩ := ih (m0 + 1) (msgScan m0 acc msg) m0
          (msgScan_snd_get_in m0 acc msg id hin)
        refine ⟨m', hm', Or.inr ?_⟩
        rcases hor with h' | h'
        · omega
        · omega
      · have hout : mapGet (msgScan m0 acc msg).2 id = some mv :=
          (msgScan_snd_get_out m0 acc msg id hin).trans h
        obtain ⟨m', hm', hor⟩ := ih (m0 + 1) (msgScan m0 acc msg) mv hout
        refine ⟨m', hm', ?_⟩
        rcases hor with h' | h'
        · exact Or.inl h'
        · exact Or.inr (by omega)

theorem collectAux_fst_last (ms : List MessageParam) (j m0 : Nat) (acc : IdxMap × IdxMap)
    (id : String) (hj : j < ms.length) (h : id ∈ useIdsOfMsg (ms.getD j default)) :
    ∃ m, mapGet (collectMapsAux ms m0 acc).1 id = some m ∧ m0 + j ≤ m := by
  induction ms generalizing j m0 acc with
  | nil => cases hj
  | cons msg rest ih =>
      cases j with
      | zero =>
          rw [List.getD_cons_zero] at h
          obtain ⟨m', hm', hor⟩ := collectAux_fst_get_mono rest (m0 + 1) (msgScan m0 acc msg)
            id m0 (msgScan_fst_get_in m0 acc msg id h)
          exact ⟨m', hm', by omega⟩
      | succ j' =>
          rw [List.getD_cons_succ] at h
          have hj' : j' < rest.length := by simpa using Nat.lt_of_succ_lt_succ hj
          obtain ⟨m, hm, hle⟩ := ih j' (m0 + 1) (msgScan m0 acc msg) hj' h
          exact ⟨m, hm, by omega⟩

theorem collectAux_snd_last (ms : List MessageParam) (j m0 : Nat) (acc : IdxMap × IdxMap)
    (id : String) (hj : j < ms.length) (h : id ∈ resultIdsOfMsg (ms.getD j default)) :
    ∃ m, mapGet (collectMapsAux ms m0 acc).2 id = some m ∧ m0 + j ≤ m := by
  induction ms generalizing j m0 acc with
  | nil => cases hj
  | cons msg rest ih =>
      cases j with
      | zero =>
          rw [List.getD_cons_zero] at h
          obtain ⟨m', hm', hor⟩ := collectAux_snd_get_mono rest (m0 + 1) (msgScan m0 acc msg)
            id m0 (msgScan_snd_get_in m0 acc msg id h)
          exact ⟨m', hm', by omega⟩
      | succ j' =>
          rw [List.getD_cons_succ] at h
          have hj' : j' < rest.length := by simpa using Nat.lt_of_succ_lt_succ hj
          obtain ⟨m, hm, hle⟩ := ih j' (m0 + 1) (msgScan m0 acc msg) hj' h
          exact ⟨m, hm, by omega⟩

/-! Conversation-level corollaries about `collectMaps`. -/

theorem useMap_get_sound (conv : List MessageParam) (id : String) (m : Nat)
    (h : mapGet (collectMaps conv).1 id = some m) :
    m < conv.length ∧ id ∈ useIdsOfMsg (conv.getD m default) := by
  have hmem := mapGet_mem _ id m h
  rcases collectAux_fst_mem conv 0 ([], []) (id, m) hmem with h' | h'
  · cases h'
  · exact ⟨by simpa using h'.2.1, by simpa using h'.2.2⟩

theorem resultMap_get_sound (conv : List MessageParam) (id : String) (m : Nat)
    (h : mapGet (collectMaps conv).2 id = some m) :
    m < conv.length ∧ id ∈ resultIdsOfMsg (conv.getD m default) := by
  have hmem := mapGet_mem _ id m h
  rcases collectAux_snd_mem conv 0 ([], []) (id, m) hmem with h' | h'
  · cases h'
  · exact ⟨by simpa using h'.2.1, by simpa using h'.2.2⟩

theorem useMap_last (conv : List MessageParam) (j : Nat) (id : String)
    (hj : j < conv.length) (h : id ∈ useIdsOfMsg (conv.getD j default)) :
    ∃ m, mapGet (collectMaps conv).1 id = some m ∧ j ≤ m := by
  obtain ⟨m, hm, hle⟩ := collectAux_fst_last conv j 0 ([], []) id hj h
  exact ⟨m, hm, by omega⟩

theorem resultMap_last (conv : List MessageParam) (j : Nat) (id : String)
    (hj : j < conv.length) (h : id ∈ resultIdsOfMsg (conv.getD j default)) :
    ∃ m, mapGet (collectMaps conv).2 id = some m ∧ j ≤ m := by
  obtain ⟨m, hm, hle⟩ := collectAux_snd_last conv j 0 ([], []) id hj h
  exact ⟨m, hm, by omega⟩

theorem useMap_has (conv : List MessageParam) (j : Nat) (id : String)
    (hj : j < conv.length) (h : id ∈ useIdsOfMsg (conv.getD j default)) :
    mapHas (collectMaps conv).1 id = true := by
  obtain ⟨m, hm, -⟩ := useMap_last conv j id hj h
  exact (mapHas_iff_get _ id).mpr ⟨m, hm⟩

theorem resultMap_has (conv : List MessageParam) (j : Nat) (id : String)
    (hj : j < conv.length) (h : id ∈ resultIdsOfMsg (conv.getD j default)) :
    mapHas (collectMaps conv).2 id = true := by
  obtain ⟨m, hm, -⟩ := resultMap_last conv j id hj h
  exact (mapHas_iff_get _ id).mpr ⟨m, hm⟩

/-! ## Pruning preserves block skeleton (types and ids) -/

theorem pruneBlock_useId (b : RBlock) : blockUseId (pruneBlock b) = blockUseId b := by
  cases b with
  | text t cc cit => by_cases h : isBase64 t <;> simp [pruneBlock, blockUseId, h]
  | tool_use id name input => rfl
  | tool_result id c ie cc =>
      cases c with
      | str s => by_cases h : isBase64 s <;> simp [pruneBlock, blockUseId, h]
      | items l => rfl
  | image d => rfl

theorem pruneBlock_resultId (b : RBlock) : blockResultId (pruneBlock b) = blockResultId b := by
  cases b with
  | text t cc cit => by_cases h : isBase64 t <;> simp [pruneBlock, blockResultId, h]
  | tool_use id name input => rfl
  | tool_result id c ie cc =>
      cases c with
      | str s => by_cases h : isBase64 s <;> simp [pruneBlock, blockResultId, h]
      | items l => rfl
  | image d => rfl

theorem useIdsOfMsg_prune (m : MessageParam) : useIdsOfMsg (pruneMessage m) = useIdsOfMsg m := by
  obtain ⟨role, content⟩ := m
  cases content with
  | str s => rfl
  | blocks bs =>
      show (bs.map pruneBlock).filterMap blockUseId = bs.filterMap blockUseId
      rw [List.filterMap_map]
      exact List.filterMap_congr (fun b _ => pruneBlock_useId b)

theorem resultIdsOfMsg_prune (m : MessageParam) :
    resultIdsOfMsg (pruneMessage m) = resultIdsOfMsg m := by
  obtain ⟨role, content⟩ := m
  cases content with
  | str s => rfl
  | blocks bs =>
      show (bs.map pruneBlock).filterMap blockResultId = bs.filterMap blockResultId
      rw [List.filterMap_map]
      exact List.filterMap_congr (fun b _ => pruneBlock_resultId b)

theorem pruneAndFix_eq (conv : List MessageParam) :
    pruneAndFixConversation conv =
      if rwOf conv = [] ∧ uwOf conv = [] then conv.map pruneMessage
      else goFix (rMsgsOf conv) (uMsgsOf conv) 0 (conv.map pruneMessage) := by
  unfold pruneAndFixConversation
  by_cases h : rwOf conv = [] ∧ uwOf conv = []
  · rw [if_pos h]
    unfold rwOf uwOf uMapOf rMapOf at h
    rw [if_pos h]
  · rw [if_neg h]
    unfold rwOf uwOf uMapOf rMapOf at h
    rw [if_neg h]
    unfold rMsgsOf uMsgsOf rwOf uwOf uMapOf rMapOf
    exact fixLoop_eq_goFix _ _ (conv.map pruneMessage)

theorem uMapOf_eq (conv : List MessageParam) : uMapOf conv = (collectMaps conv).1 := rfl

theorem rMapOf_eq (conv : List MessageParam) : rMapOf conv = (collectMaps conv).2 := rfl

/-! ## Membership in the output of `goFix` -/

theorem goFix_mem_orig (rM uM : NatMap) (i : Nat) (conv : List MessageParam)
    (x : MessageParam) (h : x ∈ conv) : x ∈ goFix rM uM i conv := by
  induction conv generalizing i with
  | nil => cases h
  | cons y rest ih =>
      rw [goFix_cons]
      rcases List.mem_cons.mp h with h' | h'
      · subst h'
        exact List.mem_append_right _ (List.mem_cons_self _ _)
      · refine List.mem_append_right _ (List.mem_cons_of_mem _ (List.mem_append_right _ ?_))
        exact ih (i + 1) h'

theorem goFix_sublist (rM uM : NatMap) (i : Nat) (conv : List MessageParam) :
    conv.Sublist (goFix rM uM i conv) := by
  induction conv generalizing i with
  | nil => exact List.Sublist.refl []
  | cons y rest ih =>
      rw [goFix_cons]
      have h1 : rest.Sublist
          ((if ¬mapHas rM i ∧ mapHas uM i ∧ rest ≠ [] then
              [dummyResultMessage (mapGetD uM i [])] else []) ++ goFix rM uM (i + 1) rest) :=
        (ih (i + 1)).trans (List.sublist_append_right _ _)
      have h2 : (y :: rest).Sublist
          (y :: ((if ¬mapHas rM i ∧ mapHas uM i ∧ rest ≠ [] then
              [dummyResultMessage (mapGetD uM i [])] else []) ++ goFix rM uM (i + 1) rest)) :=
        h1.cons₂ y
      exact h2.trans (List.sublist_append_right _ _)

theorem goFix_length_ge (rM uM : NatMap) (i : Nat) (conv : List MessageParam) :
    conv.length ≤ (goFix rM uM i conv).length :=
  (goFix_sublist rM uM i conv).length_le

theorem goFix_mem_dummyUse (rM uM : NatMap) (conv : List MessageParam) (i j : Nat)
    (hj : j < conv.length) (h : mapHas rM (i + j) = true) :
    dummyUseMessage (mapGetD rM (i + j) []) ∈ goFix rM uM i conv := by
  induction conv generalizing i j with
  | nil => cases hj
  | cons y rest ih =>
      rw [goFix_cons]
      cases j with
      | zero =>
          refine List.mem_append_left _ ?_
          rw [Nat.add_zero] at h ⊢
          rw [if_pos h]
          exact List.mem_cons_self _ _
      | succ j' =>
          have hj' : j' < rest.length := by simpa using Nat.lt_of_succ_lt_succ hj
          have h' : mapHas rM ((i + 1) + j') = true := by
            rw [show (i + 1) + j' = i + (j' + 1) by omega]
            exact h
          have := ih (i + 1) j' hj' h'
          rw [show (i + 1) + j' = i + (j' + 1) by omega] at this
          exact List.mem_append_right _ (List.mem_cons_of_mem _ (List.mem_append_right _ this))

theorem goFix_mem_dummyRes (rM uM : NatMap) (conv : List MessageParam) (i j : Nat)
    (hj : j + 1 < conv.length) (hr : mapHas rM (i + j) = false)
    (hu : mapHas uM (i + j) = true) :
    dummyResultMessage (mapGetD uM (i + j) []) ∈ goFix rM uM i conv := by
  induction conv generalizing i j with
  | nil => cases hj
  | cons y rest ih =>
      rw [goFix_cons]
      cases j with
      | zero =>
          rw [Nat.add_zero] at hr hu ⊢
          have hrest : rest ≠ [] := by
            intro hcontra
            rw [hcontra] at hj
            simp at hj
          refine List.mem_append_right _ (List.mem_cons_of_mem _ (List.mem_append_left _ ?_))
          rw [if_pos ⟨by rw [hr]; exact Bool.false_ne_true, hu, hrest⟩]
          exact List.mem_cons_self _ _
      | succ j' =>
          have hj' : j' + 1 < rest.length := by simpa using Nat.lt_of_succ_lt_succ hj
          have hr' : mapHas rM ((i + 1) + j') = false := by
            rw [show (i + 1) + j' = i + (j' + 1) by omega]; exact hr
          have hu' : mapHas uM ((i + 1) + j') = true := by
            rw [show (i + 1) + j' = i + (j' + 1) by omega]; exact hu
          have := ih (i + 1) j' hj' hr' hu'
          rw [show (i + 1) + j' = i + (j' + 1) by omega] at this
          exact List.mem_append_right _ (List.mem_cons_of_mem _ (List.mem_append_right _ this))

theorem goFix_mem_cases (rM uM : NatMap) (i : Nat) (conv : List MessageParam)
    (y : MessageParam) (h : y ∈ goFix rM uM i conv) :
    y ∈ conv ∨ (∃ m, mapHas rM m = true ∧ y = dummyUseMessage (mapGetD rM m [])) ∨
      (∃ m, mapHas uM m = true ∧ y = dummyResultMessage (mapGetD uM m [])) := by
  induction conv generalizing i with
  | nil => cases h
  | cons x rest ih =>
      rw [goFix_cons] at h
      rcases List.mem_append.mp h with h' | h'
      · by_cases hr : mapHas rM i = true
        · rw [if_pos hr] at h'
          rcases List.mem_cons.mp h' with h'' | h''
          · exact Or.inr (Or.inl ⟨i, hr, h''⟩)
          · cases h''
        · rw [if_neg hr] at h'
          cases h'
      · rcases List.mem_cons.mp h' with h'' | h''
        · exact Or.inl (h'' ▸ List.mem_cons_self _ _)
        · rcases List.mem_append.mp h'' with h3 | h3
          · by_cases hc : ¬mapHas rM i = true ∧ mapHas uM i = true ∧ rest ≠ []
            · rw [if_pos hc] at h3
              rcases List.mem_cons.mp h3 with h4 | h4
              · exact Or.inr (Or.inr ⟨i, hc.2.1, h4⟩)
              · cases h4
            · rw [if_neg hc] at h3
              cases h3
          · rcases ih (i + 1) h3 with h4 | h4 | h4
            · exact Or.inl (List.mem_cons_of_mem _ h4)
            · exact Or.inr (Or.inl h4)
            · exact Or.inr (Or.inr h4)

theorem goFix_getLast (rM uM : NatMap) (i : Nat) (conv : List MessageParam)
    (h : conv ≠ []) :
    (goFix rM uM i conv).getLast? = conv.getLast? := by
  induction conv generalizing i with
  | nil => cases h rfl
  | cons x rest ih =>
      rw [goFix_cons]
      by_cases hrest : rest = []
      · subst hrest
        rw [List.getLast?_append_cons]
        simp [goFix_nil]
      · have hGne : goFix rM uM (i + 1) rest ≠ [] := by
          intro hcontra
          exact hrest ((goFix_eq_nil_iff rM uM (i + 1) rest).mp hcontra)
        rw [List.getLast?_append_cons]
        have hx : x :: ((if ¬mapHas rM i = true ∧ mapHas uM i = true ∧ rest ≠ [] then
            [dummyResultMessage (mapGetD uM i [])] else []) ++ goFix rM uM (i + 1) rest) =
            (x :: (if ¬mapHas rM i = true ∧ mapHas uM i = true ∧ rest ≠ [] then
              [dummyResultMessage (mapGetD uM i [])] else [])) ++ goFix rM uM (i + 1) rest := by
          simp
        rw [hx, List.getLast?_append_of_ne_nil _ hGne, ih (i + 1) hrest]
        have hx2 : x :: rest = [x] ++ rest := by simp
        rw [hx2, List.getLast?_append_of_ne_nil _ hrest]

/-! ## Facts about `groupByIndex` -/

theorem mapGetD_set_self {κ ν : Type} [DecidableEq κ] (l : List (κ × ν)) (k : κ) (v d : ν) :
    mapGetD (mapSet l k v) k d = v := by
  unfold mapGetD
  rw [mapGet_set_self]
  rfl

theorem mapGetD_set_ne {κ ν : Type} [DecidableEq κ] (l : List (κ × ν)) (k k' : κ) (v d : ν)
    (h : k' ≠ k) : mapGetD (mapSet l k v) k' d = mapGetD l k' d := by
  unfold mapGetD
  rw [mapGet_set_ne l k k' v h]

theorem mapHas_set_iff {κ ν : Type} [DecidableEq κ] (l : List (κ × ν)) (k k' : κ) (v : ν) :
    mapHas (mapSet l k v) k' = true ↔ (k' = k ∨ mapHas l k' = true) := by
  by_cases h : k' = k
  · subst h
    unfold mapHas
    rw [mapGet_set_self]
    simp
  · unfold mapHas
    rw [mapGet_set_ne l k k' v h]
    simp [h]

theorem mem_mapGetD_has {κ ν : Type} [DecidableEq κ] (l : List (κ × List ν)) (k : κ) (x : ν)
    (h : x ∈ mapGetD l k []) : mapHas l k = true := by
  unfold mapGetD at h
  unfold mapHas
  cases hg : mapGet l k with
  | none => rw [hg] at h; cases h
  | some v => rfl

theorem groupByIndex_eq_foldl (ids : List String) (idx : IdxMap) :
    groupByIndex ids idx = ids.foldl (groupStep idx) [] := rfl

theorem groupFold_persist (idx : IdxMap) (ids : List String) (acc : NatMap) (m : Nat)
    (x : String) (h : x ∈ mapGetD acc m []) :
    x ∈ mapGetD (ids.foldl (groupStep idx) acc) m [] := by
  induction ids generalizing acc with
  | nil => exact h
  | cons id0 rest ih =>
      rw [List.foldl_cons]
      refine ih (groupStep idx acc id0) ?_
      unfold groupStep
      cases hg : mapGet idx id0 with
      | none => exact h
      | some m' =>
          by_cases hm : m = m'
          · subst hm
            rw [mapGetD_set_self]
            exact List.mem_append_left _ h
          · rw [mapGetD_set_ne acc m' m _ [] hm]
            exact h

theorem groupFold_in (idx : IdxMap) (ids : List String) (acc : NatMap) (id : String) (m : Nat)
    (hin : id ∈ ids) (hget : mapGet idx id = some m) :
    id ∈ mapGetD (ids.foldl (groupStep idx) acc) m [] := by
  induction ids generalizing acc with
  | nil => cases hin
  | cons id0 rest ih =>
      rw [List.foldl_cons]
      rcases List.mem_cons.mp hin with h' | h'
      · subst h'
        refine groupFold_persist idx rest (groupStep idx acc id) m id ?_
        unfold groupStep
        rw [hget, mapGetD_set_self]
        exact List.mem_append_right _ (List.mem_cons_self _ _)
      · exact ih (groupStep idx acc id0) h'

theorem groupFold_has_sound (idx : IdxMap) (ids : List String) (acc : NatMap) (m : Nat)
    (h : mapHas (ids.foldl (groupStep idx) acc) m = true) :
    mapHas acc m = true ∨ ∃ id ∈ ids, mapGet idx id = some m := by
  induction ids generalizing acc with
  | nil => exact Or.inl h
  | cons id0 rest ih =>
      rw [List.foldl_cons] at h
      rcases ih (groupStep idx acc id0) h with h' | h'
      · unfold groupStep at h'
        cases hg : mapGet idx id0 with
        | none => rw [hg] at h'; exact Or.inl h'
        | some m' =>
            rw [hg] at h'
            rcases (mapHas_set_iff acc m' m _).mp h' with h'' | h''
            · exact Or.inr ⟨id0, List.mem_cons_self _ _, h'' ▸ hg⟩
            · exact Or.inl h''
      · obtain ⟨id, hid, hg⟩ := h'
        exact Or.inr ⟨id, List.mem_cons_of_mem _ hid, hg⟩

theorem groupFold_val_sound (idx : IdxMap) (ids : List String) (acc : NatMap) (m : Nat)
    (x : String) (h : x ∈ mapGetD (ids.foldl (groupStep idx) acc) m []) :
    x ∈ mapGetD acc m [] ∨ (x ∈ ids ∧ mapGet idx x = some m) := by
  induction ids generalizing acc with
  | nil => exact Or.inl h
  | cons id0 rest ih =>
      rw [List.foldl_cons] at h
      rcases ih (groupStep idx acc id0) h with h' | h'
      · unfold groupStep at h'
        cases hg : mapGet idx id0 with
        | none => rw [hg] at h'; exact Or.inl h'
        | some m' =>
            rw [hg] at h'
            by_cases hm : m = m'
            · subst hm
              rw [mapGetD_set_self] at h'
              rcases List.mem_append.mp h' with h'' | h''
              · exact Or.inl h''
              · rcases List.mem_cons.mp h'' with h3 | h3
                · exact Or.inr ⟨h3 ▸ List.mem_cons_self _ _, h3 ▸ hg⟩
                · cases h3
            · rw [mapGetD_set_ne acc m' m _ [] hm] at h'
              exact Or.inl h'
      · exact Or.inr ⟨List.mem_cons_of_mem _ h'.1, h'.2⟩

theorem group_in (ids : List String) (idx : IdxMap) (id : String) (m : Nat)
    (hin : id ∈ ids) (hget : mapGet idx id = some m) :
    mapHas (groupByIndex ids idx) m = true ∧ id ∈ mapGetD (groupByIndex ids idx) m [] := by
  rw [groupByIndex_eq_foldl]
  have h := groupFold_in idx ids [] id m hin hget
  exact ⟨mem_mapGetD_has _ m id h, h⟩

theorem group_has_sound (ids : List String) (idx : IdxMap) (m : Nat)
    (h : mapHas (groupByIndex ids idx) m = true) :
    ∃ id ∈ ids, mapGet idx id = some m := by
  rw [groupByIndex_eq_foldl] at h
  rcases groupFold_has_sound idx ids [] m h with h' | h'
  · cases h'
  · exact h'

theorem group_val_sound (ids : List String) (idx : IdxMap) (m : Nat) (x : String)
    (h : x ∈ mapGetD (groupByIndex ids idx) m []) :
    x ∈ ids ∧ mapGet idx x = some m := by
  rw [groupByIndex_eq_foldl] at h
  rcases groupFold_val_sound idx ids [] m x h with h' | h'
  · cases h'
  · exact h'

theorem getD_mem_of_lt (l : List MessageParam) (m : Nat) (h : m < l.length) :
    l.getD m default ∈ l := by
  rw [List.getD_eq_getElem l default h]
  exact List.getElem_mem h

theorem mem_rwOf_iff (conv : List MessageParam) (id : String) :
    id ∈ rwOf conv ↔ (mapHas (rMapOf conv) id = true ∧ mapHas (uMapOf conv) id = false) := by
  unfold rwOf
  rw [List.mem_filter, mapKeys_has_iff]
  simp

theorem mem_uwOf_iff (conv : List MessageParam) (id : String) :
    id ∈ uwOf conv ↔ (mapHas (uMapOf conv) id = true ∧ mapHas (rMapOf conv) id = false) := by
  unfold uwOf
  rw [List.mem_filter, mapKeys_has_iff]
  simp

theorem dummyUse_useIds (ids : List String) : useIdsOfMsg (dummyUseMessage ids) = ids := by
  show (ids.map (fun id => RBlock.tool_use id ("unknown_tool") (""))).filterMap blockUseId = ids
  rw [List.filterMap_map]
  induction ids with
  | nil => rfl
  | cons id rest ih => rw [List.filterMap_cons]; simp [blockUseId, Function.comp] at ih ⊢; exact ih

theorem dummyUse_resultIds (ids : List String) : resultIdsOfMsg (dummyUseMessage ids) = [] := by
  show (ids.map (fun id => RBlock.tool_use id ("unknown_tool") (""))).filterMap blockResultId = []
  rw [List.filterMap_map]
  induction ids with
  | nil => rfl
  | cons id rest ih => rw [List.filterMap_cons]; simp only [blockResultId, Function.comp]; exact ih

theorem dummyRes_resultIds (ids : List String) :
    resultIdsOfMsg (dummyResultMessage ids) = ids := by
  show (ids.map (fun id =>
    RBlock.tool_result id (.str DUMMY_RESULT_CONTENT) none none)).filterMap blockResultId = ids
  rw [List.filterMap_map]
  induction ids with
  | nil => rfl
  | cons id rest ih => rw [List.filterMap_cons]; simp [blockResultId, Function.comp] at ih ⊢; exact ih

theorem dummyRes_useIds (ids : List String) : useIdsOfMsg (dummyResultMessage ids) = [] := by
  show (ids.map (fun id =>
    RBlock.tool_result id (.str DUMMY_RESULT_CONTENT) none none)).filterMap blockUseId = []
  rw [List.filterMap_map]
  induction ids with
  | nil => rfl
  | cons id rest ih => rw [List.filterMap_cons]; simp only [blockUseId, Function.comp]; exact ih

/-- Every `tool_result` reference in a repaired conversation has a matching
`tool_use` somewhere in the repaired conversation (no hypotheses needed). -/
theorem repair_result_covered (conv : List MessageParam) :
    ∀ y ∈ pruneAndFixConversation conv, ∀ id ∈ resultIdsOfMsg y,
      ∃ z ∈ pruneAndFixConversation conv, id ∈ useIdsOfMsg z := by
  intro y hy id hid
  have huse_of_hasU : mapHas (uMapOf conv) id = true →
      ∃ z ∈ conv.map pruneMessage, id ∈ useIdsOfMsg z := by
    intro hU
    obtain ⟨mu, hmu⟩ := (mapHas_iff_get _ id).mp hU
    obtain ⟨hlt, hin⟩ := useMap_get_sound conv id mu hmu
    refine ⟨pruneMessage (conv.getD mu default),
      List.mem_map_of_mem pruneMessage (getD_mem_of_lt conv mu hlt), ?_⟩
    rw [useIdsOfMsg_prune]
    exact hin
  rw [pruneAndFix_eq] at hy ⊢
  by_cases hcond : rwOf conv = [] ∧ uwOf conv = []
  · rw [if_pos hcond] at hy ⊢
    obtain ⟨x, hx, rfl⟩ := List.mem_map.mp hy
    rw [resultIdsOfMsg_prune] at hid
    obtain ⟨j, hj, rfl⟩ := List.mem_iff_getElem.mp hx
    have hjD : id ∈ resultIdsOfMsg (conv.getD j default) := by
      rw [List.getD_eq_getElem conv default hj]; exact hid
    have hR : mapHas (rMapOf conv) id = true := resultMap_has conv j id hj hjD
    have hU : mapHas (uMapOf conv) id = true := by
      by_contra hU
      have : id ∈ rwOf conv :=
        (mem_rwOf_iff conv id).mpr ⟨hR, Bool.not_eq_true _ ▸ Bool.of_not_eq_true hU⟩
      rw [hcond.1] at this
      cases this
    exact huse_of_hasU hU
  · rw [if_neg hcond] at hy ⊢
    have pruned_sub : ∀ z ∈ conv.map pruneMessage,
        z ∈ goFix (rMsgsOf conv) (uMsgsOf conv) 0 (conv.map pruneMessage) :=
      fun z hz => goFix_mem_orig _ _ 0 _ z hz
    rcases goFix_mem_cases _ _ 0 _ y hy with hy' | ⟨m, hm, rfl⟩ | ⟨m, hm, rfl⟩
    · obtain ⟨x, hx, rfl⟩ := List.mem_map.mp hy'
      rw [resultIdsOfMsg_prune] at hid
      obtain ⟨j, hj, rfl⟩ := List.mem_iff_getElem.mp hx
      have hjD : id ∈ resultIdsOfMsg (conv.getD j default) := by
        rw [List.getD_eq_getElem conv default hj]; exact hid
      have hR : mapHas (rMapOf conv) id = true := resultMap_has conv j id hj hjD
      by_cases hU : mapHas (uMapOf conv) id = true
      · obtain ⟨z, hz, hzin⟩ := huse_of_hasU hU
        exact ⟨z, pruned_sub z hz, hzin⟩
      · have horphan : id ∈ rwOf conv := (mem_rwOf_iff conv id).mpr
          ⟨hR, Bool.of_not_eq_true hU⟩
        obtain ⟨mi, hmi⟩ := (mapHas_iff_get _ id).mp hR
        have hmilt : mi < conv.length := (resultMap_get_sound conv id mi hmi).1
        obtain ⟨hgrp, hgin⟩ := group_in (rwOf conv) (rMapOf conv) id mi horphan hmi
        have hmem := goFix_mem_dummyUse (rMsgsOf conv) (uMsgsOf conv)
          (conv.map pruneMessage) 0 mi (by simp; exact hmilt) (by simp; exact hgrp)
        refine ⟨dummyUseMessage (mapGetD (rMsgsOf conv) (0 + mi) []), hmem, ?_⟩
        rw [dummyUse_useIds]
        simpa using hgin
    · rw [dummyUse_resultIds] at hid
      cases hid
    · rw [dummyRes_resultIds] at hid
      obtain ⟨hidw, hgu⟩ := group_val_sound (uwOf conv) (uMapOf conv) m id hid
      have hU : mapHas (uMapOf conv) id = true :=
        ((mem_uwOf_iff conv id).mp hidw).1
      obtain ⟨z, hz, hzin⟩ := huse_of_hasU hU
      exact ⟨z, pruned_sub z hz, hzin⟩

theorem lastD_eq_getD (l : List MessageParam) (h : l ≠ []) :
    lastD l = l.getD (l.length - 1) default := by
  induction l with
  | nil => cases h rfl
  | cons x rest ih =>
      cases hrest : rest with
      | nil => rfl
      | cons y t =>
          subst hrest
          have h1 : lastD (x :: y :: t) = lastD (y :: t) := by
            unfold lastD
            rw [List.getLast?_cons_cons]
          rw [h1, ih (by simp)]
          have h2 : (x :: y :: t).length - 1 = ((y :: t).length - 1) + 1 := by simp
          rw [h2, List.getD_cons_succ]

theorem pruneMessage_default : pruneMessage default = default := by decide

theorem getD_map_prune (conv : List MessageParam) (m : Nat) :
    (conv.map pruneMessage).getD m default = pruneMessage (conv.getD m default) := by
  rw [show (default : MessageParam) = pruneMessage default from pruneMessage_default.symm]
  exact List.getD_map conv default pruneMessage

/-- Every `tool_use` id in a repaired conversation either also occurs in the
repaired conversation's final message (the in-flight round the repair loop
deliberately leaves unresolved) or has a matching `tool_result` somewhere in
the repaired conversation — provided no message of the input mixes
`tool_use` and `tool_result` blocks. -/
theorem repair_use_covered (conv : List MessageParam) (hmix : NoMixing conv) :
    ∀ y ∈ pruneAndFixConversation conv, ∀ id ∈ useIdsOfMsg y,
      id ∈ useIdsOfMsg (lastD (pruneAndFixConversation conv)) ∨
        ∃ z ∈ pruneAndFixConversation conv, id ∈ resultIdsOfMsg z := by
  intro y hy id hid
  have hres_of_hasR : mapHas (rMapOf conv) id = true →
      ∃ z ∈ conv.map pruneMessage, id ∈ resultIdsOfMsg z := by
    intro hR
    obtain ⟨mr, hmr⟩ := (mapHas_iff_get _ id).mp hR
    obtain ⟨hlt, hin⟩ := resultMap_get_sound conv id mr hmr
    refine ⟨pruneMessage (conv.getD mr default),
      List.mem_map_of_mem pruneMessage (getD_mem_of_lt conv mr hlt), ?_⟩
    rw [resultIdsOfMsg_prune]
    exact hin
  rw [pruneAndFix_eq] at hy ⊢
  by_cases hcond : rwOf conv = [] ∧ uwOf conv = []
  · rw [if_pos hcond] at hy ⊢
    obtain ⟨x, hx, rfl⟩ := List.mem_map.mp hy
    rw [useIdsOfMsg_prune] at hid
    obtain ⟨j, hj, rfl⟩ := List.mem_iff_getElem.mp hx
    have hjD : id ∈ useIdsOfMsg (conv.getD j default) := by
      rw [List.getD_eq_getElem conv default hj]; exact hid
    have hU : mapHas (uMapOf conv) id = true := useMap_has conv j id hj hjD
    have hR : mapHas (rMapOf conv) id = true := by
      by_contra hR
      have : id ∈ uwOf conv :=
        (mem_uwOf_iff conv id).mpr ⟨hU, Bool.of_not_eq_true hR⟩
      rw [hcond.2] at this
      cases this
    exact Or.inr (hres_of_hasR hR)
  · rw [if_neg hcond] at hy ⊢
    have pruned_sub : ∀ z ∈ conv.map pruneMessage,
        z ∈ goFix (rMsgsOf conv) (uMsgsOf conv) 0 (conv.map pruneMessage) :=
      fun z hz => goFix_mem_orig _ _ 0 _ z hz
    rcases goFix_mem_cases _ _ 0 _ y hy with hy' | ⟨m, hm, rfl⟩ | ⟨m, hm, rfl⟩
    · obtain ⟨x, hx, rfl⟩ := List.mem_map.mp hy'
      rw [useIdsOfMsg_prune] at hid
      obtain ⟨j, hj, rfl⟩ := List.mem_iff_getElem.mp hx
      have hjD : id ∈ useIdsOfMsg (conv.getD j default) := by
        rw [List.getD_eq_getElem conv default hj]; exact hid
      have hU : mapHas (uMapOf conv) id = true := useMap_has conv j id hj hjD
      by_cases hR : mapHas (rMapOf conv) id = true
      · obtain ⟨z, hz, hzin⟩ := hres_of_hasR hR
        exact Or.inr ⟨z, pruned_sub z hz, hzin⟩
      · have horphan : id ∈ uwOf conv := (mem_uwOf_iff conv id).mpr
          ⟨hU, Bool.of_not_eq_true hR⟩
        obtain ⟨mu, hmu, hjmu⟩ := useMap_last conv j id hj hjD
        obtain ⟨hmult, hmuin⟩ := useMap_get_sound conv id mu hmu
        have hconvne : conv ≠ [] := by
          intro hc
          rw [hc] at hj
          cases hj

        by_cases hlast : mu = conv.length - 1
        · refine Or.inl ?_
          have hDlast : (goFix (rMsgsOf conv) (uMsgsOf conv) 0
              (conv.map pruneMessage)).getLast? = (conv.map pruneMessage).getLast? :=
            goFix_getLast _ _ 0 _ (by simpa using hconvne)
          have hlastD : lastD (goFix (rMsgsOf conv) (uMsgsOf conv) 0
              (conv.map pruneMessage)) = lastD (conv.map pruneMessage) := by
            unfold lastD
            rw [hDlast]
          rw [hlastD, lastD_eq_getD _ (by simpa using hconvne)]
          rw [List.length_map, getD_map_prune, useIdsOfMsg_prune]
          rw [← hlast]
          exact hmuin
        · have hmuleft : mu < conv.length - 1 := by omega
          have hnr : mapHas (rMsgsOf conv) mu = false := by
            by_contra hnr
            have hnr' : mapHas (rMsgsOf conv) mu = true := by
              cases hb : mapHas (rMsgsOf conv) mu
              · exact absurd hb hnr
              · rfl
            obtain ⟨rid, hridw, hridg⟩ := group_has_sound (rwOf conv) (rMapOf conv) mu hnr'
            have hridin : rid ∈ resultIdsOfMsg (conv.getD mu default) :=
              (resultMap_get_sound conv rid mu hridg).2
            rcases hmix (conv.getD mu default) (getD_mem_of_lt conv mu hmult) with he | he
            · rw [he] at hmuin; cases hmuin
            · rw [he] at hridin; cases hridin
          obtain ⟨hgrp, hgin⟩ := group_in (uwOf conv) (uMapOf conv) id mu horphan hmu
          have hmem := goFix_mem_dummyRes (rMsgsOf conv) (uMsgsOf conv)
            (conv.map pruneMessage) 0 mu (by simp; omega) (by simp; exact hnr)
            (by simp; exact hgrp)
          refine Or.inr ⟨dummyResultMessage (mapGetD (uMsgsOf conv) (0 + mu) []), hmem, ?_⟩
          rw [dummyRes_resultIds]
          simpa using hgin
    · rw [dummyUse_useIds] at hid
      obtain ⟨hidw, hgr⟩ := group_val_sound (rwOf conv) (rMapOf conv) m id hid
      have hR : mapHas (rMapOf conv) id = true :=
        ((mem_rwOf_iff conv id).mp hidw).1
      obtain ⟨z, hz, hzin⟩ := hres_of_hasR hR
      exact Or.inr ⟨z, pruned_sub z hz, hzin⟩
    · rw [dummyRes_useIds] at hid
      cases hid

/-! ## Idempotence of the repair -/

theorem isBase64_placeholder : isBase64 IMAGE_BASE64_PLACEHOLDER = false := by decide

theorem isBase64_dummyContent : isBase64 DUMMY_RESULT_CONTENT = false := by decide

theorem redact_idem (s : String) :
    (if isBase64 (if isBase64 s then IMAGE_BASE64_PLACEHOLDER else s) then
      IMAGE_BASE64_PLACEHOLDER
    else if isBase64 s then IMAGE_BASE64_PLACEHOLDER else s) =
      (if isBase64 s then IMAGE_BASE64_PLACEHOLDER else s) := by
  by_cases h : isBase64 s = true
  · simp [h, isBase64_placeholder]
  · simp [h]

theorem pruneBlock_idem (b : RBlock) : pruneBlock (pruneBlock b) = pruneBlock b := by
  cases b with
  | text t cc cit =>
      by_cases h : isBase64 t = true
      · simp [pruneBlock, h, isBase64_placeholder]
      · simp [pruneBlock, h]
  | tool_use id name input => rfl
  | tool_result id c ie cc =>
      cases c with
      | str str =>
          by_cases h : isBase64 str = true
          · simp [pruneBlock, h, isBase64_placeholder]
          · simp [pruneBlock, h]
      | items l => rfl
  | image d => rfl

theorem map_fix {α : Type} (f : α → α) (l : List α) (h : ∀ x ∈ l, f x = x) :
    l.map f = l := by
  induction l with
  | nil => rfl
  | cons x rest ih =>
      rw [List.map_cons, h x (List.mem_cons_self _ _),
        ih (fun y hy => h y (List.mem_cons_of_mem _ hy))]

theorem pruneMessage_idem (m : MessageParam) :
    pruneMessage (pruneMessage m) = pruneMessage m := by
  obtain ⟨role, content⟩ := m
  cases content with
  | str s =>
      show (⟨role, .str (if isBase64 (if isBase64 s then IMAGE_BASE64_PLACEHOLDER else s) then
        IMAGE_BASE64_PLACEHOLDER
        else if isBase64 s then IMAGE_BASE64_PLACEHOLDER else s)⟩ : MessageParam) = _
      rw [redact_idem]
      rfl
  | blocks bs =>
      show (⟨role, .blocks ((bs.map pruneBlock).map pruneBlock)⟩ : MessageParam) = _
      rw [map_fix pruneBlock (bs.map pruneBlock) (fun x hx => by
        obtain ⟨b, hb, rfl⟩ := List.mem_map.mp hx
        exact pruneBlock_idem b)]
      rfl

theorem pruneMessage_dummyUse (ids : List String) :
    pruneMessage (dummyUseMessage ids) = dummyUseMessage ids := by
  show (⟨("assistant"), .blocks ((ids.map (fun id =>
    RBlock.tool_use id ("unknown_tool") (""))).map pruneBlock)⟩ : MessageParam) = _
  rw [List.map_map]
  rfl

theorem pruneMessage_dummyRes (ids : List String) :
    pruneMessage (dummyResultMessage ids) = dummyResultMessage ids := by
  show (⟨("user"), .blocks ((ids.map (fun id =>
    RBlock.tool_result id (.str DUMMY_RESULT_CONTENT) none none)).map pruneBlock)⟩ :
      MessageParam) = _
  rw [List.map_map]
  have : (pruneBlock ∘ fun id => RBlock.tool_result id (.str DUMMY_RESULT_CONTENT) none none) =
      fun id => RBlock.tool_result id (.str DUMMY_RESULT_CONTENT) none none := by
    funext id
    show pruneBlock (RBlock.tool_result id (.str DUMMY_RESULT_CONTENT) none none) = _
    simp only [pruneBlock]
    rw [if_neg (by rw [isBase64_dummyContent]; exact Bool.false_ne_true)]
  rw [this]
  rfl

/-- Every message of a repaired conversation is a fixed point of pruning. -/
theorem repair_member_prune_fix (conv : List MessageParam) :
    ∀ y ∈ pruneAndFixConversation conv, pruneMessage y = y := by
  intro y hy
  rw [pruneAndFix_eq] at hy
  by_cases hcond : rwOf conv = [] ∧ uwOf conv = []
  · rw [if_pos hcond] at hy
    obtain ⟨x, hx, rfl⟩ := List.mem_map.mp hy
    exact pruneMessage_idem x
  · rw [if_neg hcond] at hy
    rcases goFix_mem_cases _ _ 0 _ y hy with hy' | ⟨m, hm, rfl⟩ | ⟨m, hm, rfl⟩
    · obtain ⟨x, hx, rfl⟩ := List.mem_map.mp hy'
      exact pruneMessage_idem x
    · exact pruneMessage_dummyUse _
    · exact pruneMessage_dummyRes _

theorem repair_map_prune (conv : List MessageParam) :
    (pruneAndFixConversation conv).map pruneMessage = pruneAndFixConversation conv :=
  map_fix pruneMessage _ (repair_member_prune_fix conv)

/-- In a repaired conversation every `tool_result` id also has a `tool_use`,
so the second repair finds no orphaned results. -/
theorem rwOf_repair_nil (conv : List MessageParam) :
    rwOf (pruneAndFixConversation conv) = [] := by
  unfold rwOf
  rw [List.filter_eq_nil_iff]
  intro id hid
  simp only [Bool.not_eq_true', Bool.not_eq_false]
  have hR := (mapKeys_has_iff _ id).mp hid
  obtain ⟨m, hm⟩ := (mapHas_iff_get _ id).mp hR
  obtain ⟨hlt, hin⟩ := resultMap_get_sound (pruneAndFixConversation conv) id m hm
  obtain ⟨z, hz, hzin⟩ := repair_result_covered conv
    ((pruneAndFixConversation conv).getD m default)
    (getD_mem_of_lt _ m hlt) id hin
  obtain ⟨j, hj, rfl⟩ := List.mem_iff_getElem.mp hz
  refine useMap_has (pruneAndFixConversation conv) j id hj ?_
  rw [List.getD_eq_getElem _ default hj]
  exact hzin

/-- In a repaired conversation of a non-mixing input, every orphaned
`tool_use` id lives in the final message, so its recorded index is the last
index and the second repair loop skips it. -/
theorem uwOf_repair_get (conv : List MessageParam) (hmix : NoMixing conv) :
    ∀ id ∈ uwOf (pruneAndFixConversation conv),
      mapGet (uMapOf (pruneAndFixConversation conv)) id =
        some ((pruneAndFixConversation conv).length - 1) := by
  intro id hid
  obtain ⟨hU, hnR⟩ := (mem_uwOf_iff _ id).mp hid
  obtain ⟨m, hm⟩ := (mapHas_iff_get _ id).mp hU
  obtain ⟨hlt, hin⟩ := useMap_get_sound (pruneAndFixConversation conv) id m hm
  have hnores : ¬∃ z ∈ pruneAndFixConversation conv, id ∈ resultIdsOfMsg z := by
    rintro ⟨z, hz, hzin⟩
    obtain ⟨j, hj, rfl⟩ := List.mem_iff_getElem.mp hz
    have : mapHas (rMapOf (pruneAndFixConversation conv)) id = true := by
      refine resultMap_has (pruneAndFixConversation conv) j id hj ?_
      rw [List.getD_eq_getElem _ default hj]
      exact hzin
    rw [hnR] at this
    cases this
  have hlast : id ∈ useIdsOfMsg (lastD (pruneAndFixConversation conv)) := by
    rcases repair_use_covered conv hmix ((pruneAndFixConversation conv).getD m default)
      (getD_mem_of_lt _ m hlt) id hin with h | h
    · exact h
    · exact absurd h hnores
  have hne : pruneAndFixConversation conv ≠ [] := by
    intro hc
    rw [hc] at hlt
    cases hlt
  rw [lastD_eq_getD _ hne] at hlast
  have hlen : (pruneAndFixConversation conv).length - 1 <
      (pruneAndFixConversation conv).length := by
    have : 0 < (pruneAndFixConversation conv).length := List.length_pos.mpr hne
    omega
  obtain ⟨m2, hm2, hle2⟩ := useMap_last (pruneAndFixConversation conv)
    ((pruneAndFixConversation conv).length - 1) id hlen hlast
  rw [← uMapOf_eq, hm] at hm2
  have hm2' : m = m2 := Option.some_inj.mp hm2
  have hmn : m = (pruneAndFixConversation conv).length - 1 := by omega
  rw [hm, hmn]

/-- `goFix` is the identity when there are no orphaned-result entries and all
orphaned-use entries point at the final index. -/
theorem goFix_id (rM uM : NatMap) (conv : List MessageParam) (i : Nat)
    (hr : ∀ m, mapHas rM m = false)
    (hu : ∀ m, mapHas uM m = true → m = i + conv.length - 1) :
    goFix rM uM i conv = conv := by
  induction conv generalizing i with
  | nil => rfl
  | cons x rest ih =>
      rw [goFix_cons]
      rw [if_neg (by rw [hr i]; exact Bool.false_ne_true)]
      have hcond : ¬(¬mapHas rM i = true ∧ mapHas uM i = true ∧ rest ≠ []) := by
        rintro ⟨-, hui, hrest⟩
        have h2 := hu i hui
        have hlen : 0 < rest.length := List.length_pos.mpr hrest
        have h3 : (x :: rest).length = rest.length + 1 := by simp
        omega
      rw [if_neg hcond]
      have ih' := ih (i + 1) (fun m hm => by
        have h2 := hu m hm
        have h3 : (x :: rest).length = rest.length + 1 := by simp
        omega)
      rw [ih']
      rfl

/-- Repair is idempotent on conversations in which no message mixes
`tool_use` and `tool_result` blocks. -/
theorem repair_idem (conv : List MessageParam) (hmix : NoMixing conv) :
    pruneAndFixConversation (pruneAndFixConversation conv) = pruneAndFixConversation conv := by
  rw [pruneAndFix_eq (pruneAndFixConversation conv)]
  by_cases hcond : rwOf (pruneAndFixConversation conv) = [] ∧
      uwOf (pruneAndFixConversation conv) = []
  · rw [if_pos hcond]
    exact repair_map_prune conv
  · rw [if_neg hcond]
    rw [repair_map_prune conv]
    apply goFix_id
    · intro m
      unfold rMsgsOf
      rw [rwOf_repair_nil conv]
      rfl
    · intro m hm
      obtain ⟨id, hidw, hidg⟩ := group_has_sound _ _ m hm
      have := uwOf_repair_get conv hmix id hidw
      rw [this] at hidg
      have hmm : (pruneAndFixConversation conv).length - 1 = m :=
        Option.some.injEq _ _ ▸ hidg
      omega

theorem redact_not_base64 (s : String) :
    isBase64 (if isBase64 s then IMAGE_BASE64_PLACEHOLDER else s) = false := by
  by_cases h : isBase64 s = true
  · rw [if_pos h, isBase64_placeholder]
  · rw [if_neg h]
    cases hb : isBase64 s
    · rfl
    · exact absurd hb h

theorem pruneBlock_topStringOk (b : RBlock) : blockTopStringOk (pruneBlock b) = true := by
  cases b with
  | text t cc cit =>
      by_cases h : isBase64 t = true
      · simp [pruneBlock, blockTopStringOk, h, isBase64_placeholder]
      · simp [pruneBlock, blockTopStringOk, h]
  | tool_use id name input => rfl
  | tool_result id c ie cc =>
      cases c with
      | str str =>
          by_cases h : isBase64 str = true
          · simp [pruneBlock, blockTopStringOk, h, isBase64_placeholder]
          · simp [pruneBlock, blockTopStringOk, h]
      | items l => rfl
  | image d => rfl

theorem pruneMessage_topStringsOk (m : MessageParam) :
    msgTopStringsOk (pruneMessage m) = true := by
  obtain ⟨role, content⟩ := m
  cases content with
  | str s =>
      show (!isBase64 (if isBase64 s then IMAGE_BASE64_PLACEHOLDER else s)) = true
      rw [redact_not_base64]
      rfl
  | blocks bs =>
      show (bs.map pruneBlock).all blockTopStringOk = true
      rw [List.all_eq_true]
      intro b hb
      obtain ⟨b0, hb0, rfl⟩ := List.mem_map.mp hb
      exact pruneBlock_topStringOk b0

theorem dummyUse_topStringsOk (ids : List String) :
    msgTopStringsOk (dummyUseMessage ids) = true := by
  show (ids.map (fun id => RBlock.tool_use id ("unknown_tool") (""))).all blockTopStringOk = true
  rw [List.all_eq_true]
  intro b hb
  obtain ⟨id, hid, rfl⟩ := List.mem_map.mp hb
  rfl

theorem dummyRes_topStringsOk (ids : List String) :
    msgTopStringsOk (dummyResultMessage ids) = true := by
  show (ids.map (fun id =>
    RBlock.tool_result id (.str DUMMY_RESULT_CONTENT) none none)).all blockTopStringOk = true
  rw [List.all_eq_true]
  intro b hb
  obtain ⟨id, hid, rfl⟩ := List.mem_map.mp hb
  show (!isBase64 DUMMY_RESULT_CONTENT) = true
  rw [isBase64_dummyContent]
  rfl

theorem repair_topStringsOk (conv : List MessageParam) :
    ∀ y ∈ pruneAndFixConversation conv, msgTopStringsOk y = true := by
  intro y hy
  rw [pruneAndFix_eq] at hy
  by_cases hcond : rwOf conv = [] ∧ uwOf conv = []
  · rw [if_pos hcond] at hy
    obtain ⟨x, hx, rfl⟩ := List.mem_map.mp hy
    exact pruneMessage_topStringsOk x
  · rw [if_neg hcond] at hy
    rcases goFix_mem_cases _ _ 0 _ y hy with hy' | ⟨m, hm, rfl⟩ | ⟨m, hm, rfl⟩
    · obtain ⟨x, hx, rfl⟩ := List.mem_map.mp hy'
      exact pruneMessage_topStringsOk x
    · exact dummyUse_topStringsOk _
    · exact dummyRes_topStringsOk _

theorem pruned_sublist_repair (conv : List MessageParam) :
    (conv.map pruneMessage).Sublist (pruneAndFixConversation conv) := by
  rw [pruneAndFix_eq]
  by_cases hcond : rwOf conv = [] ∧ uwOf conv = []
  · rw [if_pos hcond]
  · rw [if_neg hcond]
    exact goFix_sublist _ _ 0 _

theorem pruneBlock_of_topStringOk (b : RBlock) (h : blockTopStringOk b = true) :
    pruneBlock b = b := by
  cases b with
  | text t cc cit =>
      have ht : isBase64 t = false := by
        simpa [blockTopStringOk] using h
      simp [pruneBlock, ht]
  | tool_use id name input => rfl
  | tool_result id c ie cc =>
      cases c with
      | str str =>
          have hs : isBase64 str = false := by
            simpa [blockTopStringOk] using h
          simp [pruneBlock, hs]
      | items l => rfl
  | image d => rfl

theorem pruneMessage_of_topStringsOk (m : MessageParam) (h : msgTopStringsOk m = true) :
    pruneMessage m = m := by
  obtain ⟨role, content⟩ := m
  cases content with
  | str s =>
      have hs : isBase64 s = false := by
        simpa [msgTopStringsOk] using h
      show (⟨role, .str (if isBase64 s then IMAGE_BASE64_PLACEHOLDER else s)⟩ : MessageParam) = _
      rw [if_neg (by rw [hs]; exact Bool.false_ne_true)]
  | blocks bs =>
      have hall : ∀ b ∈ bs, blockTopStringOk b = true := by
        rw [show msgTopStringsOk ⟨role, .blocks bs⟩ = bs.all blockTopStringOk from rfl,
          List.all_eq_true] at h
        exact h
      show (⟨role, .blocks (bs.map pruneBlock)⟩ : MessageParam) = _
      rw [map_fix pruneBlock bs (fun b hb => pruneBlock_of_topStringOk b (hall b hb))]

/-! ## Claims C1, C2, C3 -/

/-- Claim C1 (counterexample): the claimed pairing invariant fails after
repair. For `mixConv`, whose first message contains both an orphaned
`tool_result` (id `a`) and an orphaned `tool_use` (id `b`), the repair loop's
`else if` inserts only the synthetic assistant turn for `a`; the `tool_use`
`b` sits in a non-final turn of the repaired conversation with no matching
`tool_result` anywhere (in particular not exactly one later in turn order). -/
theorem claim_C1_counterexample :
    ¬PairingClaim (pruneAndFixConversation mixConv) := by decide

/-- Claim C1 (amended): for conversations in which no message mixes
`tool_use` and `tool_result` blocks, after `pruneAndFixConversation`
(a) every `tool_result` block references a `tool_use` id that occurs
somewhere in the repaired conversation, and (b) every `tool_use` id either
occurs in the repaired conversation's final message (the in-flight round the
repair deliberately leaves unresolved) or has at least one matching
`tool_result` somewhere in the repaired conversation. The original claim's
"exactly one, strictly later in turn order" is not guaranteed by the code. -/
theorem claim_C1 (conv : List MessageParam) (hmix : NoMixing conv) :
    (∀ y ∈ pruneAndFixConversation conv, ∀ id ∈ resultIdsOfMsg y,
       ∃ z ∈ pruneAndFixConversation conv, id ∈ useIdsOfMsg z) ∧
    (∀ y ∈ pruneAndFixConversation conv, ∀ id ∈ useIdsOfMsg y,
       id ∈ useIdsOfMsg (lastD (pruneAndFixConversation conv)) ∨
         ∃ z ∈ pruneAndFixConversation conv, id ∈ resultIdsOfMsg z) :=
  ⟨repair_result_covered conv, repair_use_covered conv hmix⟩

/-- Claim C1 witness: the amended pairing property evaluated on a concrete
conversation with a paired round and a trailing in-flight `tool_use`. -/
theorem claim_C1_witness :
    NoMixing pairConv ∧
      ((∀ y ∈ pruneAndFixConversation pairConv, ∀ id ∈ resultIdsOfMsg y,
          ∃ z ∈ pruneAndFixConversation pairConv, id ∈ useIdsOfMsg z) ∧
       (∀ y ∈ pruneAndFixConversation pairConv, ∀ id ∈ useIdsOfMsg y,
          id ∈ useIdsOfMsg (lastD (pruneAndFixConversation pairConv)) ∨
            ∃ z ∈ pruneAndFixConversation pairConv, id ∈ resultIdsOfMsg z)) :=
  ⟨by decide, claim_C1 pairConv (by decide)⟩

/-- Claim C2 (counterexample): repair is not idempotent. For `mixConv2` the
first repair adds a synthetic `tool_use` turn for the orphaned result `c`
but skips the orphaned use `d` (same message, `else if`); the second repair
then sees `d` as an orphaned `tool_use` in a non-final turn and inserts a
synthetic `tool_result` turn, so `repair (repair C) ≠ repair C`. -/
theorem claim_C2_counterexample :
    pruneAndFixConversation (pruneAndFixConversation mixConv2) ≠
      pruneAndFixConversation mixConv2 := by decide

/-- Claim C2 (amended): repair is idempotent on every conversation in which
no message mixes `tool_use` and `tool_result` blocks (which holds for all
conversations the engine itself builds: `tool_use` blocks live in assistant
messages, `tool_result` blocks in user messages). -/
theorem claim_C2 (conv : List MessageParam) (hmix : NoMixing conv) :
    pruneAndFixConversation (pruneAndFixConversation conv) = pruneAndFixConversation conv :=
  repair_idem conv hmix

/-- Claim C2 witness: idempotence evaluated on a concrete conversation that
the first repair actually changes (orphaned trailing `tool_use`). -/
theorem claim_C2_witness :
    NoMixing pairConv2 ∧
      pruneAndFixConversation (pruneAndFixConversation pairConv2) =
        pruneAndFixConversation pairConv2 :=
  ⟨by decide, claim_C2 pairConv2 (by decide)⟩

set_option maxRecDepth 40000 in
/-- Claim C3 (counterexample): repair does not bound binary payloads. A
`tool_result` whose content is an array of nested items is skipped by the
redaction (`typeof block.content === 'string'` fails), so a 400-character
base64 payload survives repair verbatim; there is no length threshold in the
code in either direction. -/
theorem claim_C3_counterexample :
    isBase64 longB64 = true ∧ 400 ≤ longB64.length ∧
      (⟨("user"), .blocks [.tool_result ("n1") (.items [TRItem.text longB64]) none none]⟩ :
          MessageParam) ∈ pruneAndFixConversation nestedConv := by
  refine ⟨by decide, by decide, ?_⟩
  decide

/-- Claim C3 (amended): the redaction acts exactly on top-level string
payloads (message strings, `text` blocks, string-content `tool_result`
blocks) with no length threshold: (a) a block whose top-level string does
not round-trip through decode→re-encode is left untouched, and such
messages pass through pruning unchanged; (b) a base64 `text` or string
`tool_result` payload is replaced by the fixed placeholder with all other
fields preserved; (c) the pruned image of every input message appears (in
order) in the repaired conversation; and (d) after repair no message
carries a base64 top-level string payload. Nested array-valued `tool_result`
content is not scanned (see the counterexample). -/
theorem claim_C3 (conv : List MessageParam) :
    (∀ m : MessageParam, msgTopStringsOk m = true → pruneMessage m = m) ∧
    (∀ t cc cit, isBase64 t = true →
       pruneBlock (RBlock.text t cc cit) = RBlock.text IMAGE_BASE64_PLACEHOLDER cc cit) ∧
    (∀ id s ie cc, isBase64 s = true →
       pruneBlock (RBlock.tool_result id (.str s) ie cc) =
         RBlock.tool_result id (.str IMAGE_BASE64_PLACEHOLDER) ie cc) ∧
    ((conv.map pruneMessage).Sublist (pruneAndFixConversation conv)) ∧
    (∀ y ∈ pruneAndFixConversation conv, msgTopStringsOk y = true) := by
  refine ⟨fun m h => pruneMessage_of_topStringsOk m h, ?_, ?_,
    pruned_sublist_repair conv, repair_topStringsOk conv⟩
  · intro t cc cit h
    simp [pruneBlock, h]
  · intro id s ie cc h
    simp [pruneBlock, h]

/-- Claim C3 witness: the amended redaction properties evaluated at concrete
inputs: an untouched plain message, a replaced base64 text block, a replaced
base64 `tool_result` string, and the sublist/no-base64-left facts for a
concrete conversation containing a base64 text block. -/
theorem claim_C3_witness :
    (msgTopStringsOk (⟨("user"), .str ("hello there")⟩ : MessageParam) = true ∧
      pruneMessage ⟨("user"), .str ("hello there")⟩ = ⟨("user"), .str ("hello there")⟩) ∧
    (isBase64 ("aGVsbG8gd29ybGQ=") = true ∧
      pruneBlock (RBlock.text ("aGVsbG8gd29ybGQ=") none none) =
        RBlock.text IMAGE_BASE64_PLACEHOLDER none none) ∧
    (pruneBlock (RBlock.tool_result ("w1") (.str ("aGVsbG8gd29ybGQ=")) (some false) none) =
      RBlock.tool_result ("w1") (.str IMAGE_BASE64_PLACEHOLDER) (some false) none) ∧
    (([⟨("user"), .str ("hello there")⟩,
       ⟨("assistant"), .blocks [.text ("aGVsbG8gd29ybGQ=") none none]⟩] :
         List MessageParam).map pruneMessage).Sublist
      (pruneAndFixConversation
        [⟨("user"), .str ("hello there")⟩,
         ⟨("assistant"), .blocks [.text ("aGVsbG8gd29ybGQ=") none none]⟩]) :=
  ⟨⟨by decide, (claim_C3 []).1 ⟨("user"), .str ("hello there")⟩ (by decide)⟩,
   ⟨by decide, (claim_C3 []).2.1 ("aGVsbG8gd29ybGQ=") none none (by decide)⟩,
   (claim_C3 []).2.2.1 ("w1") ("aGVsbG8gd29ybGQ=") (some false) none (by decide),
   (claim_C3 [⟨("user"), .str ("hello there")⟩,
      ⟨("assistant"), .blocks [.text ("aGVsbG8gd29ybGQ=") none none]⟩]).2.2.2.1⟩

/-! ## Claims C5 and C8: context-window eviction -/

theorem repair_length_ge (conv : List MessageParam) :
    conv.length ≤ (pruneAndFixConversation conv).length := by
  have h := (pruned_sublist_repair conv).length_le
  simpa using h

theorem ensureLoop_length_ge_one (oracle : List MessageParam → Option Nat) (maxTok : Nat) :
    ∀ (fuel : Nat) (conv : List MessageParam) (tok : Option Nat), 1 ≤ conv.length →
      1 ≤ (ConversationManager.ensureLoop oracle maxTok fuel conv tok).length := by
  intro fuel
  induction fuel with
  | zero => intro conv tok h; exact h
  | succ fuel ih =>
      intro conv tok h
      unfold ConversationManager.ensureLoop
      by_cases hc : ConversationManager.tokensExceed tok maxTok = true ∧
          ConversationManager.MIN_CONVERSATION_LENGTH < conv.length
      · rw [if_pos hc]
        refine ih _ _ ?_
        have h3 : 3 ≤ conv.length := hc.2
        have hd : 1 ≤ (conv.drop 2).length := by
          rw [List.length_drop]
          omega
        exact le_trans hd (repair_length_ge (conv.drop 2))
      · rw [if_neg hc]
        exact h

/-- Claim C5 (amended): eviction returns the conversation unchanged when it
has at most `MIN_CONVERSATION_LENGTH = 2` messages, and otherwise never
empties it (at least one message always remains) — but it can both end
below 2 messages (odd lengths: two `shift()`s per iteration) and grow
(repair can insert synthetic messages after a round is evicted); see the
counterexample. -/
theorem claim_C5 (oracle : List MessageParam → Option Nat) (maxTok fuel : Nat)
    (conv : List MessageParam) :
    (conv.length ≤ 2 →
      ConversationManager.ensureContextWindowLimit oracle maxTok fuel conv = conv) ∧
    (2 < conv.length →
      1 ≤ (ConversationManager.ensureContextWindowLimit oracle maxTok fuel conv).length) := by
  constructor
  · intro h
    unfold ConversationManager.ensureContextWindowLimit
    rw [if_pos (show conv.length ≤ ConversationManager.MIN_CONVERSATION_LENGTH from h)]
  · intro h
    unfold ConversationManager.ensureContextWindowLimit
    rw [if_neg (show ¬conv.length ≤ ConversationManager.MIN_CONVERSATION_LENGTH by
      show ¬conv.length ≤ 2
      omega)]
    by_cases hx : ConversationManager.tokensExceed
        (ConversationManager.countTokens oracle conv) maxTok = false
    · rw [if_pos hx]
      omega
    · rw [if_neg hx]
      refine le_trans ?_ (repair_length_ge _)
      exact ensureLoop_length_ge_one oracle maxTok fuel conv _ (by omega)

/-- Claim C5 (counterexample): with a huge estimate, a 3-message
conversation is evicted down to 1 message (below the 2-message minimum:
eviction removes two messages at a time while `length > 2`); and a
5-message conversation grows to 6 messages when eviction orphans three
results and repair re-inserts synthetic turns, after which the estimate
fits — so eviction can also increase the length. -/
theorem claim_C5_counterexample :
    ((ConversationManager.ensureContextWindowLimit bigOracle 10 5 oddConv).length = 1 ∧
      oddConv.length = 3) ∧
    ((ConversationManager.ensureContextWindowLimit growOracle 500 5 growConv).length = 6 ∧
      growConv.length = 5) := by decide

/-- Claim C5 witness: the amended eviction bounds at concrete inputs. -/
theorem claim_C5_witness :
    (twoConv.length ≤ 2 ∧
      ConversationManager.ensureContextWindowLimit bigOracle 10 5 twoConv = twoConv) ∧
    (2 < oddConv.length ∧
      1 ≤ (ConversationManager.ensureContextWindowLimit bigOracle 10 5 oddConv).length) :=
  ⟨⟨by decide, (claim_C5 bigOracle 10 5 twoConv).1 (by decide)⟩,
   ⟨by decide, (claim_C5 bigOracle 10 5 oddConv).2 (by decide)⟩⟩

theorem msgScan_allString (m0 : Nat) (acc : IdxMap × IdxMap) (msg : MessageParam)
    (h : msgIsString msg = true) : msgScan m0 acc msg = acc := by
  obtain ⟨role, content⟩ := msg
  cases content with
  | str s => rfl
  | blocks bs => simp [msgIsString] at h

theorem collectMapsAux_allStrings (ms : List MessageParam) (m0 : Nat) (acc : IdxMap × IdxMap)
    (h : ∀ m ∈ ms, msgIsString m = true) : collectMapsAux ms m0 acc = acc := by
  induction ms generalizing m0 acc with
  | nil => rfl
  | cons msg rest ih =>
      show collectMapsAux rest (m0 + 1) (msgScan m0 acc msg) = acc
      rw [msgScan_allString m0 acc msg (h msg (List.mem_cons_self _ _))]
      exact ih (m0 + 1) acc (fun m hm => h m (List.mem_cons_of_mem _ hm))

theorem repair_allStrings (conv : List MessageParam) (h : AllStrings conv) :
    pruneAndFixConversation conv = conv.map pruneMessage := by
  rw [pruneAndFix_eq]
  have hmaps : collectMaps conv = ([], []) := collectMapsAux_allStrings conv 0 ([], []) h
  have hrw : rwOf conv = [] := by
    unfold rwOf rMapOf uMapOf
    rw [hmaps]
    rfl
  have huw : uwOf conv = [] := by
    unfold uwOf rMapOf uMapOf
    rw [hmaps]
    rfl
  rw [if_pos ⟨hrw, huw⟩]

theorem pruneMessage_isString (m : MessageParam) (h : msgIsString m = true) :
    msgIsString (pruneMessage m) = true := by
  obtain ⟨role, content⟩ := m
  cases content with
  | str s => rfl
  | blocks bs => simp [msgIsString] at h

theorem allStrings_map_prune (conv : List MessageParam) (h : AllStrings conv) :
    AllStrings (conv.map pruneMessage) := by
  intro m hm
  obtain ⟨x, hx, rfl⟩ := List.mem_map.mp hm
  exact pruneMessage_isString x (h x hx)

theorem allStrings_drop (conv : List MessageParam) (n : Nat) (h : AllStrings conv) :
    AllStrings (conv.drop n) :=
  fun m hm => h m ((List.drop_sublist n conv).subset hm)

theorem ensureLoop_fail_le_two (oracle : List MessageParam → Option Nat)
    (horacle : ∀ msgs, oracle msgs = none) (maxTok : Nat) :
    ∀ (fuel : Nat) (conv : List MessageParam), AllStrings conv →
      conv.length ≤ 2 + 2 * fuel →
      (ConversationManager.ensureLoop oracle maxTok fuel conv none).length ≤ 2 ∧
        AllStrings (ConversationManager.ensureLoop oracle maxTok fuel conv none) := by
  intro fuel
  induction fuel with
  | zero =>
      intro conv hstr hlen
      exact ⟨by simpa using hlen, hstr⟩
  | succ fuel ih =>
      intro conv hstr hlen
      unfold ConversationManager.ensureLoop
      by_cases hc : ConversationManager.tokensExceed none maxTok = true ∧
          ConversationManager.MIN_CONVERSATION_LENGTH < conv.length
      · rw [if_pos hc]
        have h3 : 3 ≤ conv.length := hc.2
        have hstr2 : AllStrings (pruneAndFixConversation (conv.drop 2)) := by
          rw [repair_allStrings _ (allStrings_drop conv 2 hstr)]
          exact allStrings_map_prune _ (allStrings_drop conv 2 hstr)
        have hlen2 : (pruneAndFixConversation (conv.drop 2)).length = conv.length - 2 := by
          rw [repair_allStrings _ (allStrings_drop conv 2 hstr)]
          simp
        have hne : (pruneAndFixConversation (conv.drop 2)).length ≠ 0 := by omega
        have hcount : ConversationManager.countTokens oracle
            (pruneAndFixConversation (conv.drop 2)) = none := by
          unfold ConversationManager.countTokens
          rw [if_neg hne, horacle]
        simp only [hcount]
        exact ih _ hstr2 (by omega)
      · rw [if_neg hc]
        have : ¬ConversationManager.MIN_CONVERSATION_LENGTH < conv.length := by
          intro hlt
          exact hc ⟨rfl, hlt⟩
        exact ⟨by simpa [ConversationManager.MIN_CONVERSATION_LENGTH] using this, hstr⟩

/-- Claim C8 (amended): when token estimation fails, `countTokens` returns
`Infinity` (modelled `none`), which always exceeds the limit, so eviction
does NOT stop: it keeps removing rounds until the conversation is at the
2-message minimum (or below). For all-string conversations with a
persistently failing estimator and enough loop fuel, the result has at most
2 messages. -/
theorem claim_C8 (oracle : List MessageParam → Option Nat)
    (horacle : ∀ msgs, oracle msgs = none) (maxTok fuel : Nat)
    (conv : List MessageParam) (hstr : AllStrings conv)
    (hfuel : conv.length ≤ 2 + 2 * fuel) :
    (ConversationManager.ensureContextWindowLimit oracle maxTok fuel conv).length ≤ 2 := by
  unfold ConversationManager.ensureContextWindowLimit
  by_cases h2 : conv.length ≤ ConversationManager.MIN_CONVERSATION_LENGTH
  · rw [if_pos h2]
    exact h2
  · rw [if_neg h2]
    have hne : conv.length ≠ 0 := by
      intro hc
      exact h2 (by rw [hc]; exact Nat.zero_le _)
    have hcount : ConversationManager.countTokens oracle conv = none := by
      unfold ConversationManager.countTokens
      rw [if_neg hne, horacle]
    have hx : ¬ConversationManager.tokensExceed (none : Option Nat) maxTok = false := by
      intro hcontra
      exact Bool.noConfusion hcontra
    simp only [hcount]
    rw [if_neg hx]
    obtain ⟨hle, hstr2⟩ := ensureLoop_fail_le_two oracle horacle maxTok fuel conv hstr hfuel
    rw [repair_allStrings _ hstr2]
    simpa using hle

/-- Claim C8 (counterexample): with an estimator that always fails,
`ensureContextWindowLimit` does not exit without removing turns — it evicts
a 6-message conversation down to the 2-message minimum. -/
theorem claim_C8_counterexample :
    (ConversationManager.ensureContextWindowLimit failOracle 100 6 sixConv).length = 2 ∧
      sixConv.length = 6 := by decide

/-- Claim C8 witness: the amended behaviour at a concrete input. -/
theorem claim_C8_witness :
    AllStrings fiveConv ∧ fiveConv.length ≤ 2 + 2 * 5 ∧
      (ConversationManager.ensureContextWindowLimit failOracle 7 5 fiveConv).length ≤ 2 :=
  ⟨by decide, by decide,
   claim_C8 failOracle (fun _ => rfl) 7 5 fiveConv (by decide) (by decide)⟩

/-! ## Claims C10 and C4: the orchestration loop -/

theorem processBlocks_limit (cap round : Nat) (bs : List RBlock) (hcap : cap ≤ round)
    (hhas : bs.any ConversationManager.isToolUseB = true) :
    ConversationManager.processBlocks cap round bs =
      ⟨(bs.takeWhile (fun b => !ConversationManager.isToolUseB b)).filter
          ConversationManager.isTextB ++
          [.text (ConversationManager.limitMsg cap) none none],
        (bs.takeWhile (fun b => !ConversationManager.isToolUseB b)).filterMap (fun b =>
          match b with
          | .text t _ _ => some (ConversationManager.Emit.str ("assistant") t)
          | _ => none) ++
          [ConversationManager.Emit.str ("assistant") (ConversationManager.limitMsg cap)],
        [], true⟩ := by
  induction bs with
  | nil => cases hhas
  | cons b rest ih =>
      cases b with
      | text t cc cit =>
          have hhas' : rest.any ConversationManager.isToolUseB = true := by
            simpa [ConversationManager.isToolUseB] using hhas
          show (let r := ConversationManager.processBlocks cap round rest
            ConversationManager.BlockPass.mk
              (RBlock.text t cc cit :: r.content)
              (ConversationManager.Emit.str ("assistant") t :: r.emits) r.toolUses r.limitHit) = _
          rw [ih hhas']
          simp [List.takeWhile_cons, ConversationManager.isToolUseB,
            ConversationManager.isTextB, List.filter_cons]
      | tool_use id name input =>
          show (if cap ≤ round then _ else _) = _
          rw [if_pos hcap]
          simp [List.takeWhile_cons, ConversationManager.isToolUseB]
      | tool_result id c ie cc =>
          have hhas' : rest.any ConversationManager.isToolUseB = true := by
            simpa [ConversationManager.isToolUseB] using hhas
          show ConversationManager.processBlocks cap round rest = _
          rw [ih hhas']
          simp [List.takeWhile_cons, ConversationManager.isToolUseB,
            ConversationManager.isTextB, List.filter_cons]
      | image d =>
          have hhas' : rest.any ConversationManager.isToolUseB = true := by
            simpa [ConversationManager.isToolUseB] using hhas
          show ConversationManager.processBlocks cap round rest = _
          rw [ih hhas']
          simp [List.takeWhile_cons, ConversationManager.isToolUseB,
            ConversationManager.isTextB, List.filter_cons]

/-- Claim C10: when the round counter has reached the cap and the response
contains a `tool_use` block, the assistant message carrying the limit
explanation is pushed twice (once in the limit branch, once at the
unconditional commit), no tool is invoked, and no further completion call
is made. -/
theorem claim_C10 (toolOracle : String → String → ConversationManager.ToolOutcome)
    (llmOracle : Nat → ConversationManager.LLMMessage) (cap fuel : Nat)
    (conv : List MessageParam) (response : ConversationManager.LLMMessage) (round : Nat)
    (hcap : cap ≤ round)
    (hhas : response.content.any ConversationManager.isToolUseB = true) :
    ConversationManager.handleLLMResponse toolOracle llmOracle cap (fuel + 1)
        conv response round =
      ⟨conv ++
        [⟨("assistant"), .blocks
          ((response.content.takeWhile (fun b => !ConversationManager.isToolUseB b)).filter
              ConversationManager.isTextB ++
            [.text (ConversationManager.limitMsg cap) none none])⟩,
         ⟨("assistant"), .blocks
          ((response.content.takeWhile (fun b => !ConversationManager.isToolUseB b)).filter
              ConversationManager.isTextB ++
            [.text (ConversationManager.limitMsg cap) none none])⟩],
        (response.content.takeWhile (fun b => !ConversationManager.isToolUseB b)).filterMap
            (fun b =>
              match b with
              | .text t _ _ => some (ConversationManager.Emit.str ("assistant") t)
              | _ => none) ++
          [ConversationManager.Emit.str ("assistant") (ConversationManager.limitMsg cap)],
        [], 0⟩ := by
  unfold ConversationManager.handleLLMResponse
  rw [processBlocks_limit cap round response.content hcap hhas]
  simp

/-- Claim C10 witness: the double push at a concrete input (`cap = 1`
already reached at `round = 1`). -/
theorem claim_C10_witness :
    ConversationManager.handleLLMResponse okToolOracle emptyLLM 1 3
        [⟨("user"), .str ("q?")⟩] resp10 1 =
      ⟨[⟨("user"), .str ("q?")⟩,
        ⟨("assistant"), .blocks
          ((resp10.content.takeWhile (fun b => !ConversationManager.isToolUseB b)).filter
              ConversationManager.isTextB ++
            [.text (ConversationManager.limitMsg 1) none none])⟩,
        ⟨("assistant"), .blocks
          ((resp10.content.takeWhile (fun b => !ConversationManager.isToolUseB b)).filter
              ConversationManager.isTextB ++
            [.text (ConversationManager.limitMsg 1) none none])⟩],
        (resp10.content.takeWhile (fun b => !ConversationManager.isToolUseB b)).filterMap
            (fun b =>
              match b with
              | .text t _ _ => some (ConversationManager.Emit.str ("assistant") t)
              | _ => none) ++
          [ConversationManager.Emit.str ("assistant") (ConversationManager.limitMsg 1)],
        [], 0⟩ :=
  claim_C10 okToolOracle emptyLLM 1 2 [⟨("user"), .str ("q?")⟩] resp10 1
    (by decide) (by decide)

/-- Claim C4 (counterexample): one response carrying 3 `tool_use` blocks
with `maxToolCallsPerQuery = 2` and `roundCount = 0` dispatches ALL THREE
invocations: the cap is compared against the round counter, which does not
change within a response, so the 3rd invocation is dispatched too. -/
theorem claim_C4_counterexample :
    (ConversationManager.handleLLMResponse okToolOracle emptyLLM 2 5
        [⟨("user"), .str ("q?")⟩] resp3 0).toolCalls.length = 3 := by decide

theorem processBlocks_toolUses_nil (cap round : Nat) (bs : List RBlock) (hcap : cap ≤ round) :
    (ConversationManager.processBlocks cap round bs).toolUses = [] := by
  induction bs with
  | nil => rfl
  | cons b rest ih =>
      cases b with
      | text t cc cit =>
          show (let r := ConversationManager.processBlocks cap round rest
            ConversationManager.BlockPass.mk
              (RBlock.text t cc cit :: r.content)
              (ConversationManager.Emit.str ("assistant") t :: r.emits)
              r.toolUses r.limitHit).toolUses = []
          simpa using ih
      | tool_use id name input =>
          simp [ConversationManager.processBlocks, hcap]
      | tool_result id c ie cc => exact ih
      | image d => exact ih

/-- Claim C4 (amended): the cap bounds the number of ROUNDS, not individual
invocations: `handleLLMResponse` started at round `r` makes at most
`cap - r` follow-up completion calls (each recursion level increments the
round counter once, and a level at the cap makes none), while every
`tool_use` block within an accepted response is dispatched regardless of
the cap (see the counterexample). -/
theorem claim_C4 (toolOracle : String → String → ConversationManager.ToolOutcome)
    (llmOracle : Nat → ConversationManager.LLMMessage) (cap fuel : Nat)
    (conv : List MessageParam) (response : ConversationManager.LLMMessage) (round : Nat) :
    (ConversationManager.handleLLMResponse toolOracle llmOracle cap fuel
        conv response round).llmCalls ≤ cap - round := by
  induction fuel generalizing conv response round with
  | zero => exact Nat.zero_le _
  | succ fuel ih =>
      unfold ConversationManager.handleLLMResponse
      by_cases he : (ConversationManager.processBlocks cap round response.content).toolUses.isEmpty
      · simp only [he, if_true]
        exact Nat.zero_le _
      · simp only [he, if_false, Bool.false_eq_true]
        have hround : round < cap := by
          by_contra hge
          have hnil := processBlocks_toolUses_nil cap round response.content (by omega)
          rw [hnil] at he
          exact he rfl
        have key : ∀ c, 1 + (ConversationManager.handleLLMResponse toolOracle llmOracle cap
            fuel c (llmOracle round) (round + 1)).llmCalls ≤ cap - round := by
          intro c
          have := ih c (llmOracle round) (round + 1)
          omega
        exact key _

/-! ## Claim C6: rate-limit/overload retry policy -/

theorem retryLoop_delays (oracle : Nat → ConversationManager.AttemptOutcome)
    (maxR d : Nat) :
    ∀ (rem attempt : Nat) (le : Option String) (k v : Nat),
      (ConversationManager.retryLoop oracle maxR d rem attempt le).delays.get? k = some v →
      v = (attempt + k) * d := by
  intro rem
  induction rem with
  | zero =>
      intro attempt le k v h
      simp [ConversationManager.retryLoop] at h
  | succ rem ih =>
      intro attempt le k v h
      unfold ConversationManager.retryLoop at h
      cases ho : oracle attempt with
      | ok response => rw [ho] at h; simp at h
      | err e =>
          rw [ho] at h
          by_cases h429 : (ConversationManager.hasSubstr e ("429") ||
              ConversationManager.hasSubstr e ("529")) = true
          · by_cases hatt : attempt < maxR
            · simp only [h429, hatt, if_true, if_pos] at h
              cases k with
              | zero =>
                  rw [Nat.add_zero]
                  simp at h
                  exact h.symm
              | succ k' =>
                  have h' := ih (attempt + 1) (some e) k' v (by simpa using h)
                  rw [h']
                  congr 1
                  omega
            · simp [h429, hatt] at h
          · simp [h429] at h

/-- Claim C6: the retry wrapper backs off `attempt * baseDelay` before each
retry of a rate-limited/overloaded call, and a distinct user-facing message
is raised once attempts are exhausted; with `maxRetries = 2` and two
rate-limited attempts, the run makes exactly 2 attempts, sleeps once
(1 x baseDelay) and fails with the rate-limit message (no third call). -/
theorem claim_C6 :
    (∀ (tokenOracle : List MessageParam → Option Nat)
       (oracle : Nat → ConversationManager.AttemptOutcome)
       (conv : List MessageParam) (maxCtx ef maxR d k v : Nat),
      (ConversationManager.createMessageWithRetry tokenOracle oracle conv
          maxCtx ef maxR d).2.delays.get? k = some v → v = (k + 1) * d) ∧
    (∀ (tokenOracle : List MessageParam → Option Nat)
       (oracle : Nat → ConversationManager.AttemptOutcome)
       (conv : List MessageParam) (maxCtx ef d : Nat) (e1 e2 : String),
      oracle 1 = .err e1 → oracle 2 = .err e2 →
      ConversationManager.hasSubstr e1 ("429") = true →
      ConversationManager.hasSubstr e2 ("429") = true →
      (ConversationManager.createMessageWithRetry tokenOracle oracle conv
          maxCtx ef 2 d).2 =
        ⟨.error (ConversationManager.rateLimitMsg 2), [1 * d], 2⟩) ∧
    ConversationManager.rateLimitMsg 2 ≠ ConversationManager.overloadMsg := by
  refine ⟨?_, ?_, by decide⟩
  · intro tokenOracle oracle conv maxCtx ef maxR d k v h
    have h' := retryLoop_delays oracle maxR d maxR 1 none k v h
    rw [h']
    congr 1
    omega
  · intro tokenOracle oracle conv maxCtx ef d e1 e2 h1 h2 ha hb
    have step2 : ConversationManager.retryLoop oracle 2 d 1 2 (some e1) =
        ⟨.error (ConversationManager.rateLimitMsg 2), [], 2⟩ := by
      show ConversationManager.retryLoop oracle 2 d (0 + 1) 2 (some e1) = _
      unfold ConversationManager.retryLoop
      rw [h2]
      norm_num [hb]
    show ConversationManager.retryLoop oracle 2 d (1 + 1) 1 none = _
    unfold ConversationManager.retryLoop
    rw [h1]
    norm_num [ha, step2]

/-- Claim C6 witness: the exhausted-retries scenario at a concrete oracle
that is rate-limited on both attempts. -/
theorem claim_C6_witness :
    (ConversationManager.createMessageWithRetry okTok oracle429 [] 100 1 2 2000).2 =
      ⟨.error (ConversationManager.rateLimitMsg 2), [1 * 2000], 2⟩ :=
  claim_C6.2.1 okTok oracle429 [] 100 1 2000
    ("Request failed with status code 429: rate limited")
    ("Request failed with status code 429: rate limited")
    rfl rfl (by decide) (by decide)

/-! ## Claim C7: structural-rejection recovery in MCPClient -/

/-- Claim C7 (amended): on a structural "`tool_use` without `tool_result`
blocks" rejection at attempt 1 whose `toolu_` id is located at message
index `i`, the run continues as the same loop at attempt 2 on the
conversation with message `i` spliced out, with no backoff delay recorded —
i.e. the offending turn is dropped and the retry adds no delay, but it DOES
advance the attempt counter and hence consumes the `maxRetries` budget. -/
theorem claim_C7 (oracle : Nat → ConversationManager.AttemptOutcome)
    (msgs : List MessageParam) (maxR d : Nat) (e tid : String) (i : Nat)
    (h1 : oracle 1 = .err e)
    (h2 : (ConversationManager.hasSubstr e ("429") ||
      ConversationManager.hasSubstr e ("529")) = false)
    (h3 : (ConversationManager.hasSubstr e ("tool_use") &&
      ConversationManager.hasSubstr e ("without tool_result blocks")) = true)
    (h5 : MCPClient.extractToolUseId e = some tid)
    (h6 : MCPClient.locateToolUse msgs tid = some i)
    (h7 : 1 < maxR) :
    MCPClient.createMessageWithRetry oracle msgs maxR d =
      MCPClient.mcpRetryLoop oracle maxR d (maxR - 1) 2 (msgs.eraseIdx i) (some e) := by
  obtain ⟨k, rfl⟩ : ∃ k, maxR = k + 2 := ⟨maxR - 2, by omega⟩
  show MCPClient.mcpRetryLoop oracle (k + 2) d (k + 2) 1 msgs none = _
  rw [show k + 2 - 1 = k + 1 from rfl]
  conv_lhs => unfold MCPClient.mcpRetryLoop
  rw [h1]
  simp [h2, h3, h5, h6]

/-- Claim C7 (counterexample): the structural-rejection retry IS counted
against the `maxRetries` budget. With `maxRetries = 2`, attempt 1 a
structural rejection (dropped turn, no delay) and attempt 2 rate-limited,
the run fails with the rate-limit-exhausted message after exactly 2
attempts even though attempt 3 would have succeeded — the structural retry
consumed one of the two attempts. -/
theorem claim_C7_counterexample :
    (MCPClient.createMessageWithRetry oracle7 msgs7 2 2000).result =
        .error (ConversationManager.rateLimitMsg 2) ∧
      (MCPClient.createMessageWithRetry oracle7 msgs7 2 2000).attempts = 2 ∧
      oracle7 3 = .ok ⟨[]⟩ := by decide

/-- Claim C7 witness: the amended drop-and-retry step at a concrete input. -/
theorem claim_C7_witness :
    MCPClient.createMessageWithRetry oracle7 msgs7 2 2000 =
      MCPClient.mcpRetryLoop oracle7 2 2000 1 2 (msgs7.eraseIdx 0) (some structErr) :=
  claim_C7 oracle7 msgs7 2 2000 structErr ("toolu_A1") 0 rfl (by decide) (by decide)
    (by decide) (by decide) (by decide)

end TesterMcpClient
